import Mathlib

/-!
# Verification of the git-branchless core against its specification

This file gives a shallow embedding, in Lean 4, of the parts of the
git-branchless sources that the specification's claims are about:

* `src/mergebase.rs` — the merge-base database (`init_tables`,
  `MergeBaseDb::get_merge_base_oid`);
* `src/commands/init.rs` — hook installation (`determine_hook_path`,
  `update_between_lines`, `update_hook_contents`, `install_hook`) and
  configuration (`detect_main_branch_name`, `set_configs`);
* `src/core/graph.rs` — smartlog graph construction
  (`find_path_to_merge_base_internal`, `walk_from_commits`, `should_hide`,
  `do_remove_commits`, `make_graph`);
* `src/commands/move.rs` — the `move` command's control flow.

Commit OIDs are modelled as `Nat`; hash maps and hash sets are modelled as
association lists and lists (Rust's iteration order over a `HashMap` is
unspecified; the embedding fixes the insertion order).  External collaborators
that are not part of the sources under verification (libgit2, the event
replayer, SQLite) are passed in as function-valued parameters.  Potentially
non-terminating loops (the BFS queue loop, the recursive `should_hide`) are
embedded with an explicit fuel parameter; a result of `none` corresponds to
the Rust code diverging or panicking.
-/

namespace MergeBase

/-- Result of libgit2's `Repository::merge_base` (the VCS adapter's raw
merge-base primitive), as consumed by `mergebase.rs`. -/
inductive GitMbResult where
  | found (oid : Nat)
  | notFound
  | otherError (msg : String)
deriving DecidableEq

/-- The `merge_base_oids` table created by `init_tables` in `mergebase.rs`:
rows `(lhs_oid, rhs_oid) → merge_base_oid NULLABLE`.  `MergeBaseDb` holds a
connection to the store; we model the store by its table contents. -/
structure MergeBaseDb where
  mergeBaseOids : List ((Nat × Nat) × Option Nat)
deriving DecidableEq

/-- `init_tables` from `mergebase.rs`: `CREATE TABLE IF NOT EXISTS
merge_base_oids (...)` — creates the (empty) table when the database is
fresh and leaves an existing table untouched. -/
def init_tables (db : Option MergeBaseDb) : MergeBaseDb :=
  match db with
  | some d => d
  | none => { mergeBaseOids := [] }

/-- `MergeBaseDb::get_merge_base_oid` from `mergebase.rs` (lines 63–79).
The Rust body is exactly:

    match repo.merge_base(lhs_oid, rhs_oid) {
        Ok(merge_base_oid) => Ok(Some(merge_base_oid)),
        Err(err) =>
            if err.code() == git2::ErrorCode::NotFound { Ok(None) }
            else { Err(wrap_git_error(err)) }
    }

The returned triple is `(result, database state after the call, list of VCS
merge-base queries issued by the call)`.  Note that the body neither reads
nor writes the `merge_base_oids` table and performs the VCS query
unconditionally. -/
def get_merge_base_oid (repoMergeBase : Nat → Nat → GitMbResult)
    (db : MergeBaseDb) (lhs rhs : Nat) :
    Except String (Option Nat) × MergeBaseDb × List (Nat × Nat) :=
  match repoMergeBase lhs rhs with
  | .found o => (.ok (some o), db, [(lhs, rhs)])
  | .notFound => (.ok none, db, [(lhs, rhs)])
  | .otherError m => (.error ("Git error: " ++ m), db, [(lhs, rhs)])

end MergeBase

namespace InitCmd

/-- The candidate branch names probed by `detect_main_branch_name` in
`commands/init.rs` (lines 185–206), in source order. -/
def mainBranchCandidates : List String :=
  ["master", "main", "mainline", "devel", "develop", "development", "trunk"]

/-- `detect_main_branch_name` from `commands/init.rs`: `find_map` over the
candidate array, returning the first name for which
`repo.find_branch(name, BranchType::Local)` succeeds.  The repository's
local branches are modelled by the predicate `findBranch`. -/
def detect_main_branch_name (findBranch : String → Bool) : Option String :=
  mainBranchCandidates.findSome? (fun b => if findBranch b then some b else none)

/-- `ConfigValue` from `commands/init.rs`. -/
inductive ConfigValue where
  | bool (b : Bool)
  | str (s : String)
deriving DecidableEq

/-- Rust's `str::trim` on the characters of a string: strip leading and
trailing whitespace.  (Rust trims per Unicode `White_Space`; the model uses
`Char.isWhitespace`, which covers the ASCII cases exercised here.) -/
def rustTrim (s : List Char) : List Char :=
  ((s.dropWhile Char.isWhitespace).reverse.dropWhile Char.isWhitespace).reverse

/-- `set_configs` from `commands/init.rs` (lines 279–314).  `inputLine` is
the line read from standard input when the main branch cannot be
auto-detected (modelled as its character list).  Returns either an error
(from `anyhow::bail!`) or the list of `(key, value)` pairs passed to
`set_config`, together with the list of messages printed.  (`set_config`
itself delegates to `git2::Config`; the embedding records the writes.) -/
def set_configs (findBranch : String → Bool) (inputLine : List Char) :
    Except String (List (String × ConfigValue)) × List String :=
  match detect_main_branch_name findBranch with
  | some mainBranchName =>
    (.ok [("branchless.core.mainBranch", .str mainBranchName),
          ("advice.detachedHead", .bool false)],
     ["Auto-detected your main branch as: " ++ mainBranchName,
      "If this is incorrect, run: git config branchless.core.mainBranch <branch>"])
  | none =>
    let printed :=
      ["Your main branch name could not be auto-detected.",
       "Examples of a main branch: master, main, trunk, etc.",
       "See https://github.com/arxanas/git-branchless/wiki/Concepts#main-branch",
       "Enter the name of your main branch: "]
    match rustTrim inputLine with
    | [] => (.error "No main branch name provided", printed)
    | c :: cs => (.ok [("branchless.core.mainBranch", .str (String.mk (c :: cs))),
                       ("advice.detachedHead", .bool false)], printed)

end InitCmd

namespace Hooks

/-- `Hook` from `commands/init.rs` (lines 15–22): either a regular Git hook
or a Twitter-style multihook.  Filesystem paths are modelled as lists of
path components. -/
inductive Hook where
  | RegularHook (path : List String)
  | MultiHook (path : List String)
deriving DecidableEq

/-- `determine_hook_path` from `commands/init.rs` (lines 24–38): if the
directory `<repo>/hooks_multi` exists, the hook file is
`<repo>/hooks_multi/<hook_type>.d/00_local_branchless`; otherwise it is
`<hooks_dir>/<hook_type>` where `hooks_dir` comes from
`get_core_hooks_path` (in `core/config.rs`, outside the sources under
verification, hence a parameter). -/
def determine_hook_path (fsExists : List String → Bool)
    (repoPath hooksDir : List String) (hookType : String) : Hook :=
  if fsExists (repoPath ++ ["hooks_multi"]) then
    Hook.MultiHook (repoPath ++ ["hooks_multi", hookType ++ ".d", "00_local_branchless"])
  else
    Hook.RegularHook (hooksDir ++ [hookType])

/-- `SHEBANG` from `commands/init.rs`. -/
def SHEBANG : List Char := "#!/bin/sh".toList

/-- `UPDATE_MARKER_START` from `commands/init.rs`. -/
def UPDATE_MARKER_START : List Char := "## START BRANCHLESS CONFIG".toList

/-- `UPDATE_MARKER_END` from `commands/init.rs`. -/
def UPDATE_MARKER_END : List Char := "## END BRANCHLESS CONFIG".toList

/-- Helper for `rustLines`: drop a single trailing carriage return from a
reversed line accumulator (Rust's `str::lines` strips one `'\r'` before a
line-terminating `'\n'`). -/
def stripCrRev (acc : List Char) : List Char :=
  match acc with
  | '\r' :: t => t
  | _ => acc

/-- Worker for `rustLines`; `acc` is the current (unterminated) line in
reverse order. -/
def rustLinesAux : List Char → List Char → List (List Char)
  | [], acc => if acc.isEmpty then [] else [acc.reverse]
  | c :: rest, acc =>
    if c = '\n' then (stripCrRev acc).reverse :: rustLinesAux rest []
    else rustLinesAux rest (c :: acc)

/-- Rust's `str::lines()`, used by `update_between_lines`: split at `'\n'`,
stripping one `'\r'` before each `'\n'`; a final segment without a
terminating newline is kept verbatim, and a trailing newline produces no
empty final line. -/
def rustLines (s : List Char) : List (List Char) :=
  rustLinesAux s []

/-- Strip one trailing `'\r'` from a line. -/
def stripCr (l : List Char) : List Char :=
  (stripCrRev l.reverse).reverse

/-- The loop of `update_between_lines` from `commands/init.rs` (lines
44–66), over the already-split lines of the input.  Returns the output
string (each emitted line followed by `'\n'`; the replacement block
`updated` is appended verbatim) together with the final value of the
`is_ignoring_lines` flag (`true` means the function hits the
`warn!("Unterminated branchless config comment in hook")` path). -/
def ublLoop (updated : List Char) :
    List (List Char) → Bool → List Char × Bool
  | [], ign => ([], ign)
  | line :: rest, ign =>
    if line = UPDATE_MARKER_START then
      let r := ublLoop updated rest true
      (UPDATE_MARKER_START ++ '\n' ::
        (updated ++ UPDATE_MARKER_END ++ '\n' :: r.1), r.2)
    else if line = UPDATE_MARKER_END then
      ublLoop updated rest false
    else if ign then
      ublLoop updated rest ign
    else
      let r := ublLoop updated rest ign
      (line ++ '\n' :: r.1, r.2)

/-- `update_between_lines` from `commands/init.rs` (lines 44–66): the
returned hook-file contents. -/
def update_between_lines (lines updated : List Char) : List Char :=
  (ublLoop updated (rustLines lines) false).1

/-- Whether `update_between_lines` takes the "Unterminated branchless
config comment in hook" warning path (the `is_ignoring_lines` flag is still
set when the loop finishes). -/
def update_between_lines_warns (lines updated : List Char) : Bool :=
  (ublLoop updated (rustLines lines) false).2

/-- Result of `std::fs::read_to_string`, as matched by
`update_hook_contents`. -/
inductive ReadResult where
  | found (contents : List Char)
  | notFound
  | otherIoError (msg : String)
deriving DecidableEq

/-- A file write performed by `update_hook_contents`
(`std::fs::write(hook_path, hook_contents)`). -/
structure WriteOp where
  path : List String
  contents : List Char
deriving DecidableEq

/-- `update_hook_contents` from `commands/init.rs` (lines 69–114): computes
the hook path and the new contents, then writes them.  (The surrounding
`create_dir_all` and the Unix exec-permission bits are directory/metadata
side effects not modelled here; the claim-relevant effect is the write.) -/
def update_hook_contents (readFile : List String → ReadResult)
    (hook : Hook) (hookContents : List Char) : Except String WriteOp :=
  match hook with
  | .RegularHook path =>
    match readFile path with
    | .found lines => .ok ⟨path, update_between_lines lines hookContents⟩
    | .notFound =>
      .ok ⟨path, SHEBANG ++ '\n' :: (UPDATE_MARKER_START ++ '\n' ::
        (hookContents ++ '\n' :: (UPDATE_MARKER_END ++ ['\n'])))⟩
    | .otherIoError m => .error m
  | .MultiHook path => .ok ⟨path, SHEBANG ++ '\n' :: hookContents⟩

/-- `install_hook` from `commands/init.rs` (lines 116–122):
`determine_hook_path` followed by `update_hook_contents`. -/
def install_hook (fsExists : List String → Bool)
    (readFile : List String → ReadResult) (repoPath hooksDir : List String)
    (hookType : String) (hookScript : List Char) : Except String WriteOp :=
  update_hook_contents readFile
    (determine_hook_path fsExists repoPath hooksDir hookType) hookScript

/-- Concatenate lines, terminating each with `'\n'` (how `ublLoop` emits
the lines it keeps). -/
def joinNl (ls : List (List Char)) : List Char :=
  ls.foldr (fun l acc => l ++ '\n' :: acc) []

/-- The line structure of the output of `ublLoop`: the lines the loop
keeps, with each sentinel block replaced by the start sentinel, the lines
of the replacement block, and the end sentinel.  (Specification-level
description of the output of `update_between_lines`, used to reason about
re-applying it.) -/
def processedLines (updated : List Char) :
    List (List Char) → Bool → List (List Char)
  | [], _ => []
  | line :: rest, ign =>
    if line = UPDATE_MARKER_START then
      UPDATE_MARKER_START ::
        (rustLines updated ++ UPDATE_MARKER_END :: processedLines updated rest true)
    else if line = UPDATE_MARKER_END then processedLines updated rest false
    else if ign then processedLines updated rest ign
    else stripCr line :: processedLines updated rest ign

end Hooks

namespace Graph

/-- `CommitVisibility` from `core/eventlog.rs` (outside the sources under
verification; only the two constructors matched in `core/graph.rs` are
needed). -/
inductive CommitVisibility where
  | visible
  | hidden
deriving DecidableEq

/-- `Node` from `core/graph.rs` (lines 30–77).  `parentIds` models
`commit.parent_ids()` of the underlying commit object; `event` is the id of
the latest event affecting the commit (events themselves are opaque
here). -/
structure Node where
  parentIds : List Nat
  parent : Option Nat
  children : List Nat
  isMain : Bool
  isVisible : Bool
  event : Option Nat
deriving DecidableEq

/-- `CommitGraph` from `core/graph.rs`: `HashMap<Oid, Node>`, modelled as an
association list in insertion order. -/
abbrev CommitGraph := List (Nat × Node)

/-- `HashMap` lookup on the association list (first match wins). -/
def lookupG : CommitGraph → Nat → Option Node
  | [], _ => none
  | (k, n) :: rest, k0 => if k = k0 then some n else lookupG rest k0

/-- `HashMap::insert`: replace the binding if the key is present, otherwise
append it. -/
def insertG : CommitGraph → Nat → Node → CommitGraph
  | [], k0, n0 => [(k0, n0)]
  | (k, n) :: rest, k0, n0 =>
    if k = k0 then (k0, n0) :: rest else (k, n) :: insertG rest k0 n0

/-- `HashMap::get_mut` followed by a field update: apply `f` to the node
bound to `k0` (no-op on other bindings). -/
def modifyG (g : CommitGraph) (k0 : Nat) (f : Node → Node) : CommitGraph :=
  g.map (fun p => if p.1 = k0 then (p.1, f p.2) else p)

/-- `HashMap::remove`. -/
def removeG (g : CommitGraph) (k0 : Nat) : CommitGraph :=
  g.filter (fun p => p.1 ≠ k0)

/-- `HashSet::insert` on a children set modelled as a duplicate-free
list. -/
def insertUnique (l : List Nat) (x : Nat) : List Nat :=
  if x ∈ l then l else l ++ [x]

/-- The environment a graph walk runs in: the parts of the Git repository,
the event replayer and the merge-base database that `core/graph.rs` calls
into.  `commitExists c` models `repo.find_commit(c)` succeeding;
`parents c` models `commit.parent_ids()`/`commit.parents()`;
`visibility` and `latestEvent` model
`event_replayer.get_cursor_commit_visibility` and
`get_cursor_commit_latest_event` at the cursor in use; `getMergeBase`
models `merge_base_db.get_merge_base_oid` (in `core/mergebase.rs`, outside
the sources under verification). -/
structure WalkEnv where
  commitExists : Nat → Bool
  parents : Nat → List Nat
  visibility : Nat → Option CommitVisibility
  latestEvent : Nat → Option Nat
  getMergeBase : Nat → Nat → Option Nat

/-- The `while let Some(path) = queue.pop_front()` loop of
`find_path_to_merge_base_internal` in `core/graph.rs` (lines 93–115).
State: the queue of paths and the list of OIDs passed to
`visited_commit_callback` so far.  `none` models divergence (fuel
exhausted) or the `expect("find_path_to_merge_base: empty path in queue")`
panic. -/
def bfsLoop (parents : Nat → List Nat) (targetOid : Nat)
    (mergeBaseOid : Option Nat) :
    Nat → List (List Nat) → List Nat → Option (Option (List Nat) × List Nat)
  | 0, _, _ => none
  | _ + 1, [], vis => some (none, vis)
  | fuel + 1, path :: queue, vis =>
    match path.getLast? with
    | none => none
    | some last =>
      if last = targetOid then some (some path, vis)
      else if some last = mergeBaseOid then
        bfsLoop parents targetOid mergeBaseOid fuel queue vis
      else
        bfsLoop parents targetOid mergeBaseOid fuel
          (queue ++ (parents last).map (fun p => path ++ [p]))
          (vis ++ parents last)

/-- `find_path_to_merge_base_internal` from `core/graph.rs` (lines 82–117):
calls the visited callback on `commitOid`, looks the commit up, queries the
merge-base of `commitOid` and `targetOid`, then runs the BFS loop.  Returns
`(path found, visited OIDs in callback order)`; `none` models an `Err`
return (commit not found) or divergence. -/
def find_path_to_merge_base_internal (env : WalkEnv) (fuel : Nat)
    (commitOid targetOid : Nat) : Option (Option (List Nat) × List Nat) :=
  if env.commitExists commitOid then
    bfsLoop env.parents targetOid (env.getMergeBase commitOid targetOid)
      fuel [[commitOid]] [commitOid]
  else none

/-- `find_path_to_merge_base` from `core/graph.rs` (lines 135–142): the
internal traversal with a no-op callback (the visited list is simply
dropped). -/
def find_path_to_merge_base (env : WalkEnv) (fuel : Nat)
    (commitOid targetOid : Nat) : Option (Option (List Nat)) :=
  (find_path_to_merge_base_internal env fuel commitOid targetOid).map (·.1)

/-- The `for current_commit in path_to_merge_base` loop of
`walk_from_commits` (lines 195–228): insert a `Node` for each commit on the
path that is not yet in the graph, stopping at the first commit already
present (`break`).  `mergeBaseOid` is the merge-base computed for the seed
this path belongs to. -/
def insertPath (env : WalkEnv) (mergeBaseOid : Option Nat) :
    List Nat → CommitGraph → CommitGraph
  | [], g => g
  | c :: cs, g =>
    if (lookupG g c).isSome then g
    else
      let isVisible :=
        match env.visibility c with
        | some .visible => true
        | none => true
        | some .hidden => false
      let isMain :=
        match mergeBaseOid with
        | some m => c = m
        | none => false
      insertPath env mergeBaseOid cs
        (insertG g c
          { parentIds := env.parents c, parent := none, children := [],
            isMain := isMain, isVisible := isVisible, event := env.latestEvent c })

/-- The `for commit_oid in &commit_oids.0` loop of `walk_from_commits`
(lines 161–235): for each seed commit, find its merge-base with the main
branch and insert the path to it (or the seed alone when there is no
merge-base); seeds whose commit is missing, or for which no path is found,
are skipped with a warning.  `none` models divergence of the inner BFS. -/
def walkSeeds (env : WalkEnv) (mainBranchOid : Nat) (fuel : Nat) :
    List Nat → CommitGraph → Option CommitGraph
  | [], g => some g
  | s :: rest, g =>
    if env.commitExists s then
      match env.getMergeBase s mainBranchOid with
      | none => walkSeeds env mainBranchOid fuel rest (insertPath env none [s] g)
      | some m =>
        match find_path_to_merge_base_internal env fuel s m with
        | none => none
        | some (none, _) => walkSeeds env mainBranchOid fuel rest g
        | some (some path, _) =>
          walkSeeds env mainBranchOid fuel rest (insertPath env (some m) path g)
    else walkSeeds env mainBranchOid fuel rest g

/-- The link computation of `walk_from_commits` (lines 237–247): for every
non-main node, one `(child, parent)` pair per VCS parent of the node that is
present in the graph. -/
def computeLinks (g : CommitGraph) : List (Nat × Nat) :=
  (g.filter (fun p => !p.2.isMain)).flatMap
    (fun p => ((p.2.parentIds).filter (fun q => (lookupG g q).isSome)).map
      (fun q => (p.1, q)))

/-- The link application loop of `walk_from_commits` (lines 248–255): set
`child.parent = Some(parent)` and insert `child` into `parent.children`. -/
def applyLinks : List (Nat × Nat) → CommitGraph → CommitGraph
  | [], g => g
  | (c, q) :: rest, g =>
    applyLinks rest
      (modifyG (modifyG g c (fun n => { n with parent := some q }))
        q (fun n => { n with children := insertUnique n.children c }))

/-- `walk_from_commits` from `core/graph.rs` (lines 151–258): seed
insertion followed by parent-child linking. -/
def walk_from_commits (env : WalkEnv) (mainBranchOid : Nat) (fuel : Nat)
    (commitOids : List Nat) : Option CommitGraph :=
  match walkSeeds env mainBranchOid fuel commitOids [] with
  | none => none
  | some g => some (applyLinks (computeLinks g) g)

/-- The memoization cache of `should_hide`: `HashMap<Oid, bool>`. -/
abbrev HideCache := List (Nat × Bool)

/-- Cache lookup (first match wins). -/
def lookupC : HideCache → Nat → Option Bool
  | [], _ => none
  | (k, b) :: rest, k0 => if k = k0 then some b else lookupC rest k0

/-- Cache insert (replace-or-append, like `HashMap::insert`). -/
def insertC : HideCache → Nat → Bool → HideCache
  | [], k0, b0 => [(k0, b0)]
  | (k, b) :: rest, k0, b0 =>
    if k = k0 then (k0, b0) :: rest else (k, b) :: insertC rest k0 b0

/-- The `.all(...)` over a node's children in `should_hide` (lines
280–294), without the memoization cache: `rec_` decides the recursive
calls.  When `filterMain` is set (the main-node case) a child is first
looked up in the graph and skipped if it is itself a main node — Rust's
`graph[child_oid]` indexing panics on a missing child, which is modelled by
`none`.  Short-circuits on the first `false`, like the Rust iterator. -/
def allChildrenHideNaive (g : CommitGraph) (rec_ : Nat → Option Bool)
    (filterMain : Bool) : List Nat → Option Bool
  | [] => some true
  | c :: cs =>
    if filterMain then
      match lookupG g c with
      | none => none
      | some cn =>
        if cn.isMain then allChildrenHideNaive g rec_ filterMain cs
        else
          match rec_ c with
          | some true => allChildrenHideNaive g rec_ filterMain cs
          | some false => some false
          | none => none
    else
      match rec_ c with
      | some true => allChildrenHideNaive g rec_ filterMain cs
      | some false => some false
      | none => none

/-- The recursion of `should_hide` from `core/graph.rs` (lines 260–301)
with the memoization cache stripped out — the "naive recursive predicate"
the specification describes: `false` on the unhideable set; for a non-main
node, not visible and all children hide; for a main node, visible and all
non-main children hide.  `&&` short-circuiting is preserved.  The fuel
bounds the recursion depth; `none` models divergence (on a cyclic graph) or
a panic (missing node). -/
def shouldHideNaive (g : CommitGraph) (unhideableOids : List Nat) :
    Nat → Nat → Option Bool
  | 0, _ => none
  | fuel + 1, oid =>
    if oid ∈ unhideableOids then some false
    else
      match lookupG g oid with
      | none => none
      | some node =>
        if node.isMain then
          if node.isVisible then
            allChildrenHideNaive g (shouldHideNaive g unhideableOids fuel)
              true node.children
          else some false
        else
          if node.isVisible then some false
          else
            allChildrenHideNaive g (shouldHideNaive g unhideableOids fuel)
              false node.children

/-- The `.all(...)` over a node's children in `should_hide`, with the
memoization cache threaded through the recursive calls in iteration
order. -/
def allChildrenHideMemo (g : CommitGraph)
    (rec_ : HideCache → Nat → Option (Bool × HideCache))
    (filterMain : Bool) : HideCache → List Nat → Option (Bool × HideCache)
  | cache, [] => some (true, cache)
  | cache, c :: cs =>
    if filterMain then
      match lookupG g c with
      | none => none
      | some cn =>
        if cn.isMain then allChildrenHideMemo g rec_ filterMain cache cs
        else
          match rec_ cache c with
          | some (true, cache1) => allChildrenHideMemo g rec_ filterMain cache1 cs
          | some (false, cache1) => some (false, cache1)
          | none => none
    else
      match rec_ cache c with
      | some (true, cache1) => allChildrenHideMemo g rec_ filterMain cache1 cs
      | some (false, cache1) => some (false, cache1)
      | none => none

/-- `should_hide` from `core/graph.rs` (lines 260–301), memoized exactly as
in the source: consult the cache first; otherwise unhideable OIDs are not
hidden; a main node is hidden iff it is visible and all its non-main
children hide; a non-main node is hidden iff it is not visible and all its
children hide; finally the result is (re-)inserted into the cache.  The
fuel bounds the recursion depth; `none` models divergence or a panic. -/
def shouldHideMemo (g : CommitGraph) (unhideableOids : List Nat) :
    Nat → HideCache → Nat → Option (Bool × HideCache)
  | 0, _, _ => none
  | fuel + 1, cache, oid =>
    match lookupC cache oid with
    | some b => some (b, insertC cache oid b)
    | none =>
      let res :=
        if oid ∈ unhideableOids then some (false, cache)
        else
          match lookupG g oid with
          | none => none
          | some node =>
            if node.isMain then
              if node.isVisible then
                allChildrenHideMemo g (shouldHideMemo g unhideableOids fuel)
                  true cache node.children
              else some (false, cache)
            else
              if node.isVisible then some (false, cache)
              else
                allChildrenHideMemo g (shouldHideMemo g unhideableOids fuel)
                  false cache node.children
      match res with
      | none => none
      | some (b, cache1) => some (b, insertC cache1 oid b)

/-- The `graph.keys().filter(|oid| should_hide(..))` collection in
`do_remove_commits` (lines 312–317): one shared cache is threaded through
the queries in key order; returns the list of OIDs to hide. -/
def computeHideList (g : CommitGraph) (unhideableOids : List Nat)
    (fuel : Nat) : List Nat → HideCache → Option (List Nat)
  | [], _ => some []
  | k :: ks, cache =>
    match shouldHideMemo g unhideableOids fuel cache k with
    | none => none
    | some (b, cache1) =>
      match computeHideList g unhideableOids fuel ks cache1 with
      | none => none
      | some l => some (if b then k :: l else l)

/-- One iteration of the removal loop of `do_remove_commits` (lines
321–330): look up the node (`graph[&oid]` panics when absent, modelled by
`none`), remove it, and delete it from its graph-parent's children set when
that parent is still present. -/
def removeOne (g : CommitGraph) (x : Nat) : Option CommitGraph :=
  match lookupG g x with
  | none => none
  | some nd =>
    match nd.parent with
    | some q =>
      if (lookupG (removeG g x) q).isSome then
        some (modifyG (removeG g x) q
          (fun n => { n with children := n.children.filter (· ≠ x) }))
      else some (removeG g x)
    | none => some (removeG g x)

/-- The removal loop of `do_remove_commits` over the computed hide list. -/
def removeAll : List Nat → CommitGraph → Option CommitGraph
  | [], g => some g
  | x :: xs, g =>
    match removeOne g x with
    | none => none
    | some g1 => removeAll xs g1

/-- `do_remove_commits` from `core/graph.rs` (lines 303–331): the
unhideable set is the branch OIDs plus HEAD; compute the hide list with a
fresh shared cache, then remove those nodes. -/
def do_remove_commits (g : CommitGraph) (headOid : Option Nat)
    (branchOids : List Nat) (fuel : Nat) : Option CommitGraph :=
  let unhideableOids :=
    branchOids ++ (match headOid with | some h => [h] | none => [])
  match computeHideList g unhideableOids fuel (g.map (·.1)) [] with
  | none => none
  | some hideList => removeAll hideList g

/-- `make_graph` from `core/graph.rs` (lines 348–379): the seed set is the
active OIDs from the event replayer, the branch OIDs, and HEAD (if any);
walk from the seeds, then prune if `removeCommits` is set.  (Rust collects
the seeds into a `HashSet`; the embedding keeps the list — `insertPath`
skips commits already in the graph, so duplicate seeds are harmless.) -/
def make_graph (env : WalkEnv) (fuel : Nat) (headOid : Option Nat)
    (mainBranchOid : Nat) (branchOids : List Nat) (activeOids : List Nat)
    (removeCommits : Bool) : Option CommitGraph :=
  let commitOids :=
    activeOids ++ branchOids ++ (match headOid with | some h => [h] | none => [])
  match walk_from_commits env mainBranchOid fuel commitOids with
  | none => none
  | some g =>
    if removeCommits then do_remove_commits g headOid branchOids fuel
    else some g


/-- A graph has duplicate-free keys (maintained by construction: nodes are
only ever inserted at keys not yet present). -/
def NoDupKeys (g : CommitGraph) : Prop := (g.map (fun p => p.1)).Nodup

/-- The stabilized value of the naive `should_hide` recursion at a node:
some fuel suffices to make it return `b`. -/
def stab (g : CommitGraph) (unhideableOids : List Nat) (oid : Nat) (b : Bool) : Prop :=
  ∃ f, shouldHideNaive g unhideableOids f oid = some b

/-- Every entry of a memoization cache agrees with the naive recursion. -/
def cacheConsistent (g : CommitGraph) (unhideableOids : List Nat)
    (cache : HideCache) : Prop :=
  ∀ o b, lookupC cache o = some b → stab g unhideableOids o b

/-- The children relation is the inverse of the graph-parent relation: for
every node with a graph parent, the parent is present and lists the node
among its children. -/
def ParentInv (g : CommitGraph) : Prop :=
  ∀ n nd p, lookupG g n = some nd → nd.parent = some p →
    ∃ pn, lookupG g p = some pn ∧ n ∈ pn.children

/-- Only non-main nodes carry a graph-parent link (main nodes keep
`parent = None` so that the main branch renders as a straight spine). -/
def NonMainParent (g : CommitGraph) : Prop :=
  ∀ n nd, lookupG g n = some nd → nd.parent ≠ none → nd.isMain = false

/-- All nodes of a graph still have the trivial links produced by the seed
walk (`parent = None`, `children = ∅`); linking happens afterwards. -/
def TrivialLinks (g : CommitGraph) : Prop :=
  ∀ n nd, lookupG g n = some nd → nd.parent = none ∧ nd.children = []

end Graph

namespace MoveCmd

/-- The observable steps of `r#move` in `commands/move.rs`, in order of
execution.  Each constructor corresponds to one call into an external
subsystem (repository, database, planner) or an output line. -/
inductive MoveEffect where
  | getRepo
  | getHeadOid
  | printLine (msg : String)
  | resolveCommitsCall (names : List String)
  | getMainBranchOid
  | getBranchOidToNames
  | getDbConn
  | newMergeBaseDb
  | newEventLogDb
  | newEventReplayer
  | makeGraphCall
  | makeTransactionId (name : String)
  | makeRebasePlanCall (sourceOid : Nat)
  | executeRebasePlanCall (sourceOid destOid : Nat)
deriving DecidableEq

/-- `ResolveCommitsResult` from `util.rs` (outside the sources under
verification), as matched by `r#move`. -/
inductive ResolveCommitsResult where
  | ok (commitOids : List Nat)
  | commitNotFound (commit : String)

/-- The external collaborators `r#move` calls into, with the results they
return.  `make_rebase_plan`/`execute_rebase_plan` live in
`core/rewrite.rs`, and `resolve_commits`/`get_main_branch_oid`/
`get_branch_oid_to_names` in `util.rs` — all outside the sources under
verification, hence opaque functions here. -/
structure MoveEnv where
  walkEnv : Graph.WalkEnv
  activeOids : List Nat
  headOid : Option Nat
  resolveCommits : List String → Except String ResolveCommitsResult
  mainBranchOid : Nat
  branchOids : List Nat
  makeRebasePlan : Nat → Except String Unit
  executeRebasePlan : Nat → Nat → Except String Int

/-- `resolve_base_commit` from `commands/move.rs` (lines 19–35): walk
`parent` links upward until the current node or its graph parent is a main
node (or there is no parent).  Fueled; `none` models divergence or the
`graph[&oid]` panic on a missing node. -/
def resolve_base_commit (graph : Graph.CommitGraph) :
    Nat → Nat → Option Nat
  | 0, _ => none
  | fuel + 1, oid =>
    match Graph.lookupG graph oid with
    | none => none
    | some node =>
      if node.isMain then some oid
      else
        match node.parent with
        | some parentOid =>
          match Graph.lookupG graph parentOid with
          | none => none
          | some pn =>
            if pn.isMain then some oid
            else resolve_base_commit graph fuel parentOid
        | none => some oid

/-- `r#move` from `commands/move.rs` (lines 38–127), with its control flow
preserved step by step.  Returns `none` when the Rust code panics (a failed
`.expect`) or diverges, and otherwise the `anyhow::Result<isize>` together
with the ordered list of effects performed. -/
def rmove (env : MoveEnv) (fuel : Nat) (source dest base : Option String)
    (_forceOnDisk : Bool) : Option (Except String Int × List MoveEffect) :=
  let effs0 : List MoveEffect := [.getRepo, .getHeadOid]
  match source, base with
  | some _, some _ =>
    some (.ok 1, effs0 ++
      [.printLine "The --source and --base options cannot both be provided."])
  | source, base =>
    let srcRes : Option (String × Bool) :=
      match source, base with
      | some s, none => some (s, false)
      | none, some b => some (b, true)
      | none, none =>
        (match env.headOid with
         | none => none
         | some h => some (toString h, false))
      | some _, some _ => none
    match srcRes with
    | none => none
    | some (sourceName, shouldResolveBaseCommit) =>
      let destRes : Option String :=
        match dest with
        | some d => some d
        | none =>
          match env.headOid with
          | none => none
          | some h => some (toString h)
      match destRes with
      | none => none
      | some destName =>
        let effs1 := effs0 ++ [.resolveCommitsCall [sourceName, destName]]
        match env.resolveCommits [sourceName, destName] with
        | .error e => some (.error e, effs1)
        | .ok (.commitNotFound c) =>
          some (.ok 1, effs1 ++ [.printLine ("Commit not found: " ++ c)])
        | .ok (.ok commitOids) =>
          match commitOids with
          | [sourceOid, destOid] =>
            let effs2 := effs1 ++
              [.getMainBranchOid, .getBranchOidToNames, .getDbConn,
               .newMergeBaseDb, .newEventLogDb, .newEventReplayer,
               .makeGraphCall]
            match Graph.make_graph env.walkEnv fuel (some sourceOid)
                env.mainBranchOid env.branchOids env.activeOids true with
            | none => none
            | some graph =>
              let sourceOidRes :=
                if shouldResolveBaseCommit then
                  resolve_base_commit graph fuel sourceOid
                else some sourceOid
              match sourceOidRes with
              | none => none
              | some sourceOid1 =>
                let effs3 := effs2 ++ [.makeTransactionId "move",
                  .makeRebasePlanCall sourceOid1]
                match env.makeRebasePlan sourceOid1 with
                | .error e => some (.error e, effs3)
                | .ok _ =>
                  let effs4 := effs3 ++ [.executeRebasePlanCall sourceOid1 destOid]
                  match env.executeRebasePlan sourceOid1 destOid with
                  | .error e => some (.error e, effs4)
                  | .ok result => some (.ok result, effs4)
          | _ =>
            some (.error "Unexpected number of returns values from resolve_commits",
              effs1)

end MoveCmd

/-- Helper for C7: probing a candidate list with `find_map`-style
first-hit semantics returns the head of the filtered list. -/
theorem findSome_if_eq_filter_head (p : String → Bool) (l : List String) :
    l.findSome? (fun b => if p b then some b else none) = (l.filter p).head? := by
  induction l with
  | nil => rfl
  | cons a t ih =>
    by_cases h : p a <;> simp [List.findSome?_cons, List.filter_cons, h, ih]

/-- C1: the claim says `get_merge_base_oid` stores the result of the first
call for a pair in the `merge_base_oids` cache table and answers a second
call for the same pair from the cache without issuing a VCS merge-base
query.  Evaluating the code at the failing input (two successive calls for
the pair `(5, 7)` on a freshly initialized database): the first call
returns the VCS answer but leaves the table empty, and the second call
issues a VCS merge-base query again.  This contradicts the function's own
documentation ("If the query is already in the cache, return the cached
result. If not, it is computed, cached, and returned."). -/
theorem C1_cache_never_used :
    (MergeBase.get_merge_base_oid (fun a b => .found (min a b))
        (MergeBase.init_tables none) 5 7).1 = .ok (some 5) ∧
    (MergeBase.get_merge_base_oid (fun a b => .found (min a b))
        (MergeBase.init_tables none) 5 7).2.1.mergeBaseOids = [] ∧
    (MergeBase.get_merge_base_oid (fun a b => .found (min a b))
        (MergeBase.get_merge_base_oid (fun a b => .found (min a b))
          (MergeBase.init_tables none) 5 7).2.1 5 7).2.2 = [(5, 7)] :=
  ⟨rfl, rfl, rfl⟩

/-- C9: if `move` is invoked with both `--source` and `--base`, it prints
"The --source and --base options cannot both be provided." and returns exit
code 1 immediately: the only effects performed are opening the repository
and reading HEAD — no commits are resolved, no database connection is
opened, no graph is built, and no rebase plan is created or executed. -/
theorem C9_move_rejects_source_and_base (env : MoveCmd.MoveEnv) (fuel : Nat)
    (s b : String) (dest : Option String) (forceOnDisk : Bool) :
    MoveCmd.rmove env fuel (some s) dest (some b) forceOnDisk =
      some (.ok 1, [.getRepo, .getHeadOid,
        .printLine "The --source and --base options cannot both be provided."]) :=
  rfl

/-- C7: on init the main branch is auto-detected by probing the local
branches in the exact order master, main, mainline, devel, develop,
development, trunk, the first existing local branch winning; when none
exists the user is prompted, and input that trims to empty makes
`set_configs` fail with an error instead of setting a branch name. -/
theorem C7_main_branch_detection :
    (∀ findBranch, InitCmd.detect_main_branch_name findBranch =
        (InitCmd.mainBranchCandidates.filter findBranch).head?) ∧
    (∀ findBranch inputLine,
        InitCmd.detect_main_branch_name findBranch = none →
        InitCmd.rustTrim inputLine = [] →
        InitCmd.set_configs findBranch inputLine =
          (.error "No main branch name provided",
           ["Your main branch name could not be auto-detected.",
            "Examples of a main branch: master, main, trunk, etc.",
            "See https://github.com/arxanas/git-branchless/wiki/Concepts#main-branch",
            "Enter the name of your main branch: "])) := by
  constructor
  · intro findBranch
    exact findSome_if_eq_filter_head findBranch InitCmd.mainBranchCandidates
  · intro findBranch inputLine hdetect htrim
    simp [InitCmd.set_configs, hdetect, htrim]

/-- Witness for C7: with no local branches at all and an input line
consisting of a bare newline, detection fails and `set_configs` errors
out. -/
theorem C7_main_branch_detection_witness :
    InitCmd.detect_main_branch_name (fun _ => false) = none ∧
    InitCmd.set_configs (fun _ => false) ['\n'] =
      (.error "No main branch name provided",
       ["Your main branch name could not be auto-detected.",
        "Examples of a main branch: master, main, trunk, etc.",
        "See https://github.com/arxanas/git-branchless/wiki/Concepts#main-branch",
        "Enter the name of your main branch: "]) :=
  ⟨by decide, C7_main_branch_detection.2 (fun _ => false) ['\n'] (by decide) (by decide)⟩

/-- C8: when `hooks_multi/<hook>.d/` is present in the repository's
metadata directory (so in particular its parent directory `hooks_multi`
exists, which is the condition the code tests), installing a hook chooses
the multi-hook layout and writes a file named `00_local_branchless` inside
that directory, instead of writing a regular hook file. -/
theorem C8_multihook_layout (fsExists : List String → Bool)
    (readFile : List String → Hooks.ReadResult)
    (repoPath hooksDir : List String) (hookType : String)
    (hookScript : List Char)
    (_hdir : fsExists (repoPath ++ ["hooks_multi", hookType ++ ".d"]) = true)
    (hparent : fsExists (repoPath ++ ["hooks_multi"]) = true) :
    Hooks.determine_hook_path fsExists repoPath hooksDir hookType =
      Hooks.Hook.MultiHook
        (repoPath ++ ["hooks_multi", hookType ++ ".d", "00_local_branchless"]) ∧
    Hooks.install_hook fsExists readFile repoPath hooksDir hookType hookScript =
      .ok ⟨repoPath ++ ["hooks_multi", hookType ++ ".d", "00_local_branchless"],
           Hooks.SHEBANG ++ '\n' :: hookScript⟩ := by
  constructor
  · simp [Hooks.determine_hook_path, hparent]
  · simp [Hooks.install_hook, Hooks.determine_hook_path, hparent,
      Hooks.update_hook_contents]

/-- Witness for C8: a concrete filesystem containing
`repo/hooks_multi/post-commit.d/`. -/
theorem C8_multihook_layout_witness :
    Hooks.determine_hook_path
      (fun p => decide (p = ["repo", "hooks_multi"] ∨
        p = ["repo", "hooks_multi", "post-commit.d"]))
      ["repo"] ["repo", "hooks"] "post-commit" =
      Hooks.Hook.MultiHook
        ["repo", "hooks_multi", "post-commit.d", "00_local_branchless"] ∧
    Hooks.install_hook
      (fun p => decide (p = ["repo", "hooks_multi"] ∨
        p = ["repo", "hooks_multi", "post-commit.d"]))
      (fun _ => Hooks.ReadResult.notFound)
      ["repo"] ["repo", "hooks"] "post-commit" ['h', 'i'] =
      .ok ⟨["repo", "hooks_multi", "post-commit.d", "00_local_branchless"],
           Hooks.SHEBANG ++ '\n' :: ['h', 'i']⟩ :=
  C8_multihook_layout
    (fun p => decide (p = ["repo", "hooks_multi"] ∨
      p = ["repo", "hooks_multi", "post-commit.d"]))
    (fun _ => Hooks.ReadResult.notFound)
    ["repo"] ["repo", "hooks"] "post-commit" ['h', 'i'] (by decide) (by decide)

/-- C6: when `find_path_to_merge_base(commit_oid, target_oid)` is called
with `target_oid` a descendant of `commit_oid` (the merge-base of the pair
is `commit_oid` itself), the traversal visits `commit_oid`, returns no
path, and visits nothing else: neither `target_oid` nor any ancestor of
`commit_oid` is visited. -/
theorem C6_bfs_early_stop (env : Graph.WalkEnv) (fuel commitOid targetOid : Nat)
    (hex : env.commitExists commitOid = true)
    (hmb : env.getMergeBase commitOid targetOid = some commitOid)
    (hne : commitOid ≠ targetOid)
    (hfuel : 2 ≤ fuel) :
    Graph.find_path_to_merge_base_internal env fuel commitOid targetOid =
      some (none, [commitOid]) := by
  obtain ⟨f, rfl⟩ : ∃ f, fuel = f + 2 :=
    ⟨fuel - 2, by omega⟩
  simp only [Graph.find_path_to_merge_base_internal, hex, if_true, hmb]
  simp [Graph.bfsLoop, hne]

/-- Witness for C6: a two-commit repository where commit 3 is the
merge-base of itself and its descendant 5. -/
theorem C6_bfs_early_stop_witness :
    Graph.find_path_to_merge_base_internal
      ⟨fun _ => true, fun _ => [], fun _ => none, fun _ => none,
       fun a b => some (min a b)⟩ 2 3 5 = some (none, [3]) :=
  C6_bfs_early_stop
    ⟨fun _ => true, fun _ => [], fun _ => none, fun _ => none,
     fun a b => some (min a b)⟩ 2 3 5 rfl (by decide) (by decide) (by decide)

namespace Hooks

theorem mem_of_mem_stripCrRev {c : Char} {acc : List Char}
    (h : c ∈ stripCrRev acc) : c ∈ acc := by
  unfold stripCrRev at h
  split at h
  · exact List.mem_cons_of_mem _ h
  · exact h

theorem no_newline_of_mem_rustLinesAux {l : List Char} :
    ∀ {s acc : List Char}, (∀ c ∈ acc, c ≠ '\n') → l ∈ rustLinesAux s acc →
    '\n' ∉ l := by
  intro s
  induction s with
  | nil =>
    intro acc hacc hl
    simp only [rustLinesAux] at hl
    split at hl
    · simp at hl
    · simp only [List.mem_singleton] at hl
      subst hl
      intro hmem
      exact hacc _ (List.mem_reverse.mp hmem) rfl
  | cons c rest ih =>
    intro acc hacc hl
    simp only [rustLinesAux] at hl
    split at hl
    · rcases List.mem_cons.mp hl with h | h
      · subst h
        intro hmem
        exact hacc _ (mem_of_mem_stripCrRev (List.mem_reverse.mp hmem)) rfl
      · exact ih (by simp) h
    · refine ih ?_ hl
      intro x hx
      rcases List.mem_cons.mp hx with h | h
      · subst h; assumption
      · exact hacc _ h

theorem mem_line_mem_input {c : Char} {l : List Char} :
    ∀ {s acc : List Char}, l ∈ rustLinesAux s acc → c ∈ l →
    c ∈ s ∨ c ∈ acc := by
  intro s
  induction s with
  | nil =>
    intro acc hl hc
    simp only [rustLinesAux] at hl
    split at hl
    · simp at hl
    · simp only [List.mem_singleton] at hl
      subst hl
      exact Or.inr (List.mem_reverse.mp hc)
  | cons a rest ih =>
    intro acc hl hc
    simp only [rustLinesAux] at hl
    split at hl
    · rcases List.mem_cons.mp hl with h | h
      · subst h
        exact Or.inr (mem_of_mem_stripCrRev (List.mem_reverse.mp hc))
      · rcases ih h hc with h1 | h1
        · exact Or.inl (List.mem_cons_of_mem _ h1)
        · simp at h1
    · rcases ih hl hc with h1 | h1
      · exact Or.inl (List.mem_cons_of_mem _ h1)
      · rcases List.mem_cons.mp h1 with h2 | h2
        · exact Or.inl (by simp [h2])
        · exact Or.inr h2

/-- Characters of every line of `rustLines s` come from `s`. -/
theorem mem_of_mem_rustLines {c : Char} {l s : List Char}
    (hl : l ∈ rustLines s) (hc : c ∈ l) : c ∈ s := by
  rcases mem_line_mem_input hl hc with h | h
  · exact h
  · simp at h

/-- Lines of `rustLines s` never contain a newline. -/
theorem no_newline_of_mem_rustLines {l s : List Char} (hl : l ∈ rustLines s) :
    '\n' ∉ l :=
  no_newline_of_mem_rustLinesAux (by simp) hl

theorem stripCr_eq_self {l : List Char} (h : '\r' ∉ l) : stripCr l = l := by
  unfold stripCr stripCrRev
  split
  · next heq =>
    exfalso
    apply h
    have : '\r' ∈ l.reverse := by rw [heq]; simp
    exact List.mem_reverse.mp this
  · simp

/-- Single-step equation: empty input. -/
theorem rustLinesAux_nil (acc : List Char) :
    rustLinesAux [] acc = if acc.isEmpty then [] else [acc.reverse] := rfl

/-- Single-step equation: newline at the head. -/
theorem rustLinesAux_newline (rest acc : List Char) :
    rustLinesAux ('\n' :: rest) acc =
      (stripCrRev acc).reverse :: rustLinesAux rest [] := rfl

/-- Single-step equation: ordinary character at the head. -/
theorem rustLinesAux_other {c : Char} (hc : c ≠ '\n') (rest acc : List Char) :
    rustLinesAux (c :: rest) acc = rustLinesAux rest (c :: acc) := by
  simp [rustLinesAux, hc]

theorem rustLinesAux_split_line {l : List Char} (hl : '\n' ∉ l) :
    ∀ (s acc : List Char),
    rustLinesAux (l ++ '\n' :: s) acc =
      (stripCrRev (l.reverse ++ acc)).reverse :: rustLinesAux s [] := by
  induction l with
  | nil =>
    intro s acc
    rw [List.nil_append, rustLinesAux_newline]
    simp
  | cons c l' ih =>
    intro s acc
    have hc : c ≠ '\n' := by
      intro h; exact hl (by simp [h])
    have hl' : '\n' ∉ l' := fun h => hl (List.mem_cons_of_mem _ h)
    rw [List.cons_append, rustLinesAux_other hc, ih hl' s (c :: acc)]
    simp

/-- Splitting off one full line. -/
theorem rustLines_cons_line {l : List Char} (hl : '\n' ∉ l) (s : List Char) :
    rustLines (l ++ '\n' :: s) = stripCr l :: rustLines s := by
  unfold rustLines stripCr
  rw [rustLinesAux_split_line hl s []]
  simp

theorem rustLinesAux_append_terminated {X : List Char} :
    ∀ {acc : List Char} (s : List Char), X.getLast? = some '\n' →
    rustLinesAux (X ++ s) acc = rustLinesAux X acc ++ rustLinesAux s [] := by
  induction X with
  | nil => intro acc s h; simp at h
  | cons c X' ih =>
    intro acc s h
    match X', h with
    | [], h =>
      have hc : c = '\n' := by simpa using h
      subst hc
      rw [List.cons_append, List.nil_append, rustLinesAux_newline,
        rustLinesAux_newline, rustLinesAux_nil]
      simp
    | c' :: X'', h =>
      have h' : (c' :: X'').getLast? = some '\n' := by
        rwa [List.getLast?_cons_cons] at h
      by_cases hc : c = '\n'
      · subst hc
        rw [List.cons_append, rustLinesAux_newline, rustLinesAux_newline,
          ih s h']
        simp
      · rw [List.cons_append, rustLinesAux_other hc, rustLinesAux_other hc,
          ih s h']

/-- Lines of a newline-terminated (or empty) block concatenate. -/
theorem rustLines_append_terminated {X : List Char}
    (hX : X = [] ∨ X.getLast? = some '\n') (s : List Char) :
    rustLines (X ++ s) = rustLines X ++ rustLines s := by
  rcases hX with h | h
  · subst h; simp [rustLines, rustLinesAux_nil]
  · unfold rustLines
    exact rustLinesAux_append_terminated s h

theorem ublLoop_nil (X : List Char) (ign : Bool) :
    ublLoop X [] ign = ([], ign) := rfl

theorem ublLoop_cons_start (X : List Char) (rest : List (List Char))
    (ign : Bool) :
    ublLoop X (UPDATE_MARKER_START :: rest) ign =
      (UPDATE_MARKER_START ++ '\n' ::
        (X ++ UPDATE_MARKER_END ++ '\n' :: (ublLoop X rest true).1),
       (ublLoop X rest true).2) := by
  simp [ublLoop]

theorem ublLoop_cons_end (X : List Char) (rest : List (List Char))
    (ign : Bool) :
    ublLoop X (UPDATE_MARKER_END :: rest) ign = ublLoop X rest false := by
  have h : UPDATE_MARKER_END ≠ UPDATE_MARKER_START := by decide
  simp [ublLoop, h]

theorem ublLoop_cons_skip (X : List Char) {line : List Char}
    (h1 : line ≠ UPDATE_MARKER_START) (h2 : line ≠ UPDATE_MARKER_END)
    (rest : List (List Char)) :
    ublLoop X (line :: rest) true = ublLoop X rest true := by
  simp [ublLoop, h1, h2]

theorem ublLoop_cons_emit (X : List Char) {line : List Char}
    (h1 : line ≠ UPDATE_MARKER_START) (h2 : line ≠ UPDATE_MARKER_END)
    (rest : List (List Char)) :
    ublLoop X (line :: rest) false =
      (line ++ '\n' :: (ublLoop X rest false).1, (ublLoop X rest false).2) := by
  simp [ublLoop, h1, h2]

/-- The lines of the output of `ublLoop` are exactly `processedLines`,
provided the replacement block is newline-terminated (or empty) and the
input lines contain no newlines. -/
theorem rustLines_ublLoop (X : List Char)
    (hX : X = [] ∨ X.getLast? = some '\n') :
    ∀ (ls : List (List Char)) (ign : Bool), (∀ l ∈ ls, '\n' ∉ l) →
    rustLines ((ublLoop X ls ign).1) = processedLines X ls ign := by
  intro ls
  induction ls with
  | nil =>
    intro ign _
    simp [ublLoop_nil, processedLines, rustLines, rustLinesAux_nil]
  | cons line rest ih =>
    intro ign hls
    have hrest : ∀ l ∈ rest, '\n' ∉ l := fun l hl => hls l (List.mem_cons_of_mem _ hl)
    have hline : '\n' ∉ line := hls line (List.mem_cons_self _ _)
    by_cases hS : line = UPDATE_MARKER_START
    · subst hS
      rw [ublLoop_cons_start]
      simp only
      have hnlS : '\n' ∉ UPDATE_MARKER_START := by decide
      rw [rustLines_cons_line hnlS, List.append_assoc,
        rustLines_append_terminated hX]
      have hnlE : '\n' ∉ UPDATE_MARKER_END := by decide
      rw [rustLines_cons_line hnlE, ih true hrest]
      have e1 : stripCr UPDATE_MARKER_START = UPDATE_MARKER_START := by decide
      have e2 : stripCr UPDATE_MARKER_END = UPDATE_MARKER_END := by decide
      rw [e1, e2]
      simp [processedLines]
    · by_cases hE : line = UPDATE_MARKER_END
      · subst hE
        rw [ublLoop_cons_end, ih false hrest]
        have h : UPDATE_MARKER_END ≠ UPDATE_MARKER_START := by decide
        simp [processedLines, h]
      · cases ign with
        | true =>
          rw [ublLoop_cons_skip X hS hE, ih true hrest]
          simp [processedLines, hS, hE]
        | false =>
          rw [ublLoop_cons_emit X hS hE]
          simp only
          rw [rustLines_cons_line hline, ih false hrest]
          simp [processedLines, hS, hE]

/-- In the ignoring state, lines that are not sentinels are dropped. -/
theorem ublLoop_skip_all (X : List Char) {cs : List (List Char)}
    (h : ∀ l ∈ cs, l ≠ UPDATE_MARKER_START ∧ l ≠ UPDATE_MARKER_END) :
    ∀ tail, ublLoop X (cs ++ tail) true = ublLoop X tail true := by
  induction cs with
  | nil => intro tail; simp
  | cons c cs' ih =>
    intro tail
    have hc := h c (List.mem_cons_self _ _)
    rw [List.cons_append, ublLoop_cons_skip X hc.1 hc.2]
    exact ih (fun l hl => h l (List.mem_cons_of_mem _ hl)) tail

/-- Re-running `ublLoop` on the processed lines reproduces its output:
the second pass is the identity on the output of the first. -/
theorem ublLoop_processed (X : List Char)
    (hXm : ∀ l ∈ rustLines X, l ≠ UPDATE_MARKER_START ∧ l ≠ UPDATE_MARKER_END) :
    ∀ (ls : List (List Char)) (ign : Bool), (∀ l ∈ ls, stripCr l = l) →
    (ublLoop X (processedLines X ls ign) false).1 = (ublLoop X ls ign).1 := by
  intro ls
  induction ls with
  | nil => intro ign _; simp [processedLines, ublLoop_nil]
  | cons line rest ih =>
    intro ign hls
    have hrest : ∀ l ∈ rest, stripCr l = l := fun l hl => hls l (List.mem_cons_of_mem _ hl)
    by_cases hS : line = UPDATE_MARKER_START
    · subst hS
      have hpl : processedLines X (UPDATE_MARKER_START :: rest) ign =
          UPDATE_MARKER_START ::
            (rustLines X ++ UPDATE_MARKER_END :: processedLines X rest true) := by
        simp [processedLines]
      rw [hpl, ublLoop_cons_start, ublLoop_cons_start]
      simp only
      rw [ublLoop_skip_all X hXm (UPDATE_MARKER_END :: processedLines X rest true),
        ublLoop_cons_end, ih true hrest]
    · by_cases hE : line = UPDATE_MARKER_END
      · subst hE
        have h : UPDATE_MARKER_END ≠ UPDATE_MARKER_START := by decide
        have hpl : processedLines X (UPDATE_MARKER_END :: rest) ign =
            processedLines X rest false := by
          simp [processedLines, h]
        rw [hpl, ublLoop_cons_end, ih false hrest]
      · cases ign with
        | true =>
          have hpl : processedLines X (line :: rest) true =
              processedLines X rest true := by
            simp [processedLines, hS, hE]
          rw [hpl, ublLoop_cons_skip X hS hE, ih true hrest]
        | false =>
          have hstrip : stripCr line = line := hls line (List.mem_cons_self _ _)
          have hpl : processedLines X (line :: rest) false =
              line :: processedLines X rest false := by
            simp [processedLines, hS, hE, hstrip]
          rw [hpl, ublLoop_cons_emit X hS hE, ublLoop_cons_emit X hS hE]
          simp only
          rw [ih false hrest]

end Hooks

namespace Hooks

/-- Non-sentinel lines before `rest` are emitted verbatim (with a newline
appended to each). -/
theorem ublLoop_emit_prefix (X : List Char) {pre : List (List Char)}
    (h : ∀ l ∈ pre, l ≠ UPDATE_MARKER_START ∧ l ≠ UPDATE_MARKER_END) :
    ∀ rest, ublLoop X (pre ++ rest) false =
      (joinNl pre ++ (ublLoop X rest false).1, (ublLoop X rest false).2) := by
  induction pre with
  | nil => intro rest; simp [joinNl]
  | cons c pre' ih =>
    intro rest
    have hc := h c (List.mem_cons_self _ _)
    rw [List.cons_append, ublLoop_cons_emit X hc.1 hc.2,
      ih (fun l hl => h l (List.mem_cons_of_mem _ hl)) rest]
    simp [joinNl]

end Hooks

/-- Counterexample for C5: the claim asserts that `update_between_lines` is
idempotent for every file contents `F` and replacement block `X`, and that
when the sentinel pair is absent the first application inserts the
sentinels.  Both parts fail on the code: with
`F = "## START BRANCHLESS CONFIG\n## END BRANCHLESS CONFIG\nb\n"` and the
non-newline-terminated block `X = "x"`, a second application drops the
trailing line `b` that the first application kept; and for the
sentinel-free file `F2 = "a\n"` the first application returns `F2`
unchanged, inserting no sentinels. -/
theorem C5_not_idempotent_counterexample :
    (Hooks.update_between_lines
        (Hooks.update_between_lines
          ("## START BRANCHLESS CONFIG\n## END BRANCHLESS CONFIG\nb\n").toList
          ("x").toList)
        ("x").toList ≠
      Hooks.update_between_lines
        ("## START BRANCHLESS CONFIG\n## END BRANCHLESS CONFIG\nb\n").toList
        ("x").toList) ∧
    Hooks.update_between_lines ("a\n").toList ("x").toList = ("a\n").toList ∧
    Hooks.UPDATE_MARKER_START ∉
      Hooks.rustLines (Hooks.update_between_lines ("a\n").toList ("x").toList) := by
  refine ⟨by decide, by decide, by decide⟩

/-- C5 (amended): for file contents `F` containing no carriage returns and
a replacement block `X` that is empty or newline-terminated and none of
whose lines equals a sentinel line, `update_between_lines` is idempotent:
`update_between_lines (update_between_lines F X) X = update_between_lines
F X`.  Moreover, when no line of `F` is a sentinel line, the application
inserts nothing: it returns exactly the lines of `F`, each terminated with
a newline (sentinel insertion happens only in `update_hook_contents`, for a
hook file that does not yet exist); such an `F` is itself a fixed point
rather than gaining sentinels. -/
theorem C5_update_between_lines_idempotent (F X : List Char)
    (hF : '\r' ∉ F)
    (hX : X = [] ∨ X.getLast? = some '\n')
    (hXm : ∀ l ∈ Hooks.rustLines X,
      l ≠ Hooks.UPDATE_MARKER_START ∧ l ≠ Hooks.UPDATE_MARKER_END) :
    Hooks.update_between_lines (Hooks.update_between_lines F X) X =
      Hooks.update_between_lines F X ∧
    ((∀ l ∈ Hooks.rustLines F,
        l ≠ Hooks.UPDATE_MARKER_START ∧ l ≠ Hooks.UPDATE_MARKER_END) →
      Hooks.update_between_lines F X = Hooks.joinNl (Hooks.rustLines F)) := by
  have hnl : ∀ l ∈ Hooks.rustLines F, '\n' ∉ l :=
    fun l hl => Hooks.no_newline_of_mem_rustLines hl
  have hstrip : ∀ l ∈ Hooks.rustLines F, Hooks.stripCr l = l :=
    fun l hl => Hooks.stripCr_eq_self
      (fun hr => hF (Hooks.mem_of_mem_rustLines hl hr))
  constructor
  · show (Hooks.ublLoop X (Hooks.rustLines
        ((Hooks.ublLoop X (Hooks.rustLines F) false).1)) false).1 = _
    rw [Hooks.rustLines_ublLoop X hX (Hooks.rustLines F) false hnl,
      Hooks.ublLoop_processed X hXm (Hooks.rustLines F) false hstrip]
    rfl
  · intro hfree
    show (Hooks.ublLoop X (Hooks.rustLines F) false).1 = _
    have h := Hooks.ublLoop_emit_prefix X hfree []
    rw [List.append_nil] at h
    rw [h]
    simp [Hooks.ublLoop_nil]

/-- Witness for C5 (amended): a concrete hook file with one sentinel block
and a newline-terminated replacement block. -/
theorem C5_update_between_lines_idempotent_witness :
    Hooks.update_between_lines
      (Hooks.update_between_lines
        ("hello\n## START BRANCHLESS CONFIG\nold\n## END BRANCHLESS CONFIG\nbye\n").toList
        ("new\n").toList)
      ("new\n").toList =
    Hooks.update_between_lines
      ("hello\n## START BRANCHLESS CONFIG\nold\n## END BRANCHLESS CONFIG\nbye\n").toList
      ("new\n").toList :=
  (C5_update_between_lines_idempotent
    ("hello\n## START BRANCHLESS CONFIG\nold\n## END BRANCHLESS CONFIG\nbye\n").toList
    ("new\n").toList (by decide) (by decide) (by decide)).1

/-- Counterexample for C10: the claim asserts that for every input
containing the start sentinel with no matching end sentinel after it, the
output is the lines preceding the start sentinel, the start sentinel, the
replacement block, and the end sentinel.  With the input
`"## START BRANCHLESS CONFIG\n## START BRANCHLESS CONFIG\n"` (which
contains the start sentinel and no end sentinel at all) the code emits the
replacement block twice, not once as the claim describes. -/
theorem C10_unterminated_counterexample :
    (Hooks.UPDATE_MARKER_START ∈
      Hooks.rustLines
        ("## START BRANCHLESS CONFIG\n## START BRANCHLESS CONFIG\n").toList ∧
     Hooks.UPDATE_MARKER_END ∉
      Hooks.rustLines
        ("## START BRANCHLESS CONFIG\n## START BRANCHLESS CONFIG\n").toList) ∧
    Hooks.update_between_lines
      ("## START BRANCHLESS CONFIG\n## START BRANCHLESS CONFIG\n").toList
      ("x\n").toList ≠
      Hooks.UPDATE_MARKER_START ++ '\n' ::
        (("x\n").toList ++ Hooks.UPDATE_MARKER_END ++ ['\n']) := by
  refine ⟨⟨by decide, by decide⟩, by decide⟩

/-- C10 (amended): for every input whose lines are some prefix `pre`, then
exactly one start sentinel line, then a suffix `suf`, where neither `pre`
nor `suf` contains a sentinel line, `update_between_lines` returns the
lines of `pre` (each newline-terminated) followed by the start sentinel,
the replacement block, and the end sentinel — every original line after the
start sentinel is discarded — and it takes the "Unterminated branchless
config comment in hook" warning path while still returning normally. -/
theorem C10_unterminated_sentinel (F X : List Char)
    (pre suf : List (List Char))
    (hsplit : Hooks.rustLines F = pre ++ Hooks.UPDATE_MARKER_START :: suf)
    (hpre : ∀ l ∈ pre,
      l ≠ Hooks.UPDATE_MARKER_START ∧ l ≠ Hooks.UPDATE_MARKER_END)
    (hsuf : ∀ l ∈ suf,
      l ≠ Hooks.UPDATE_MARKER_START ∧ l ≠ Hooks.UPDATE_MARKER_END) :
    Hooks.update_between_lines F X =
      Hooks.joinNl pre ++ Hooks.UPDATE_MARKER_START ++ '\n' ::
        (X ++ Hooks.UPDATE_MARKER_END ++ ['\n']) ∧
    Hooks.update_between_lines_warns F X = true := by
  have hsufnil : Hooks.ublLoop X suf true = ([], true) := by
    have h := Hooks.ublLoop_skip_all X hsuf []
    rwa [List.append_nil, Hooks.ublLoop_nil] at h
  have hmain : Hooks.ublLoop X (Hooks.rustLines F) false =
      (Hooks.joinNl pre ++ Hooks.UPDATE_MARKER_START ++ '\n' ::
        (X ++ Hooks.UPDATE_MARKER_END ++ ['\n']), true) := by
    rw [hsplit, Hooks.ublLoop_emit_prefix X hpre, Hooks.ublLoop_cons_start,
      hsufnil]
    simp
  constructor
  · show (Hooks.ublLoop X (Hooks.rustLines F) false).1 = _
    rw [hmain]
  · show (Hooks.ublLoop X (Hooks.rustLines F) false).2 = true
    rw [hmain]

/-- Witness for C10 (amended): the input `"keep\n## START BRANCHLESS
CONFIG\nlost\n"` has one line before the start sentinel and one after,
with no end sentinel. -/
theorem C10_unterminated_sentinel_witness :
    Hooks.update_between_lines
      ("keep\n## START BRANCHLESS CONFIG\nlost\n").toList ("x\n").toList =
      Hooks.joinNl [("keep").toList] ++ Hooks.UPDATE_MARKER_START ++ '\n' ::
        (("x\n").toList ++ Hooks.UPDATE_MARKER_END ++ ['\n']) ∧
    Hooks.update_between_lines_warns
      ("keep\n## START BRANCHLESS CONFIG\nlost\n").toList ("x\n").toList = true :=
  C10_unterminated_sentinel
    ("keep\n## START BRANCHLESS CONFIG\nlost\n").toList ("x\n").toList
    [("keep").toList] [("lost").toList] (by decide) (by decide) (by decide)

namespace Graph

theorem lookupG_insertG (g : CommitGraph) (k : Nat) (n : Node) (k0 : Nat) :
    lookupG (insertG g k n) k0 = if k = k0 then some n else lookupG g k0 := by
  induction g with
  | nil =>
    show lookupG [(k, n)] k0 = _
    by_cases h0 : k = k0 <;> simp [lookupG, h0]
  | cons p rest ih =>
    obtain ⟨k1, n1⟩ := p
    show lookupG (if k1 = k then (k, n) :: rest else (k1, n1) :: insertG rest k n) k0 = _
    by_cases h : k1 = k
    · subst h
      by_cases h0 : k1 = k0 <;> simp [lookupG, h0]
    · rw [if_neg h]
      by_cases h0 : k1 = k0
      · subst h0
        have hkk : ¬ k = k1 := fun he => h he.symm
        simp [lookupG, hkk]
      · simp [lookupG, h0, ih]

theorem lookupG_modifyG (g : CommitGraph) (k : Nat) (f : Node → Node) (k0 : Nat) :
    lookupG (modifyG g k f) k0 =
      if k = k0 then (lookupG g k0).map f else lookupG g k0 := by
  induction g with
  | nil => by_cases h : k = k0 <;> simp [modifyG, lookupG, h]
  | cons p rest ih =>
    obtain ⟨k1, n1⟩ := p
    show lookupG ((if k1 = k then (k1, f n1) else (k1, n1)) :: modifyG rest k f) k0 = _
    by_cases h : k1 = k
    · subst h
      rw [if_pos rfl]
      by_cases h0 : k1 = k0
      · subst h0
        simp [lookupG]
      · simp [lookupG, h0, ih]
    · rw [if_neg h]
      by_cases h0 : k1 = k0
      · subst h0
        have hkk : ¬ k = k1 := fun he => h he.symm
        simp [lookupG, hkk]
      · simp [lookupG, h0, ih]

theorem lookupG_removeG (g : CommitGraph) (k : Nat) (k0 : Nat) :
    lookupG (removeG g k) k0 = if k = k0 then none else lookupG g k0 := by
  induction g with
  | nil => by_cases h : k = k0 <;> simp [removeG, lookupG, h]
  | cons p rest ih =>
    obtain ⟨k1, n1⟩ := p
    by_cases h : k1 = k
    · subst h
      have : removeG ((k1, n1) :: rest) k1 = removeG rest k1 := by
        simp [removeG, List.filter_cons]
      rw [this, ih]
      by_cases h0 : k1 = k0
      · subst h0; simp
      · simp [h0, lookupG, fun h1 => h0 h1]
    · have : removeG ((k1, n1) :: rest) k = (k1, n1) :: removeG rest k := by
        simp [removeG, List.filter_cons, h]
      rw [this]
      by_cases h0 : k1 = k0
      · subst h0
        have hkk : ¬ k = k1 := fun he => h he.symm
        simp [lookupG, hkk]
      · simp [lookupG, h0, ih]

theorem lookupG_none_of_not_mem_keys {g : CommitGraph} {k : Nat}
    (h : k ∉ g.map (fun p => p.1)) : lookupG g k = none := by
  induction g with
  | nil => rfl
  | cons p rest ih =>
    obtain ⟨k1, n1⟩ := p
    simp only [List.map_cons, List.mem_cons, not_or] at h
    have h1 : ¬ k1 = k := fun he => h.1 he.symm
    simp [lookupG, h1, ih h.2]

theorem mem_keys_of_lookupG_some {g : CommitGraph} {k : Nat} {nd : Node}
    (h : lookupG g k = some nd) : k ∈ g.map (fun p => p.1) := by
  by_contra hmem
  rw [lookupG_none_of_not_mem_keys hmem] at h
  exact Option.noConfusion h

theorem lookupG_some_of_mem {g : CommitGraph} {k : Nat} {nd : Node}
    (hnd : NoDupKeys g) (h : (k, nd) ∈ g) : lookupG g k = some nd := by
  induction g with
  | nil => simp at h
  | cons p rest ih =>
    obtain ⟨k1, n1⟩ := p
    have hnd1 : NoDupKeys rest := by
      unfold NoDupKeys at hnd ⊢
      simp only [List.map_cons, List.nodup_cons] at hnd
      exact hnd.2
    rcases List.mem_cons.mp h with h1 | h1
    · injection h1 with e1 e2
      subst e1
      subst e2
      simp [lookupG]
    · have hne : ¬ k1 = k := by
        intro he
        subst he
        unfold NoDupKeys at hnd
        simp only [List.map_cons, List.nodup_cons] at hnd
        exact hnd.1 (List.mem_map.mpr ⟨(k1, nd), h1, rfl⟩)
      simp [lookupG, hne, ih hnd1 h1]

theorem allChildrenHideNaive_mono {g : CommitGraph} {rec1 rec2 : Nat → Option Bool}
    (h : ∀ c b, rec1 c = some b → rec2 c = some b) (fm : Bool) :
    ∀ (cs : List Nat) (b : Bool), allChildrenHideNaive g rec1 fm cs = some b →
      allChildrenHideNaive g rec2 fm cs = some b := by
  intro cs
  induction cs with
  | nil => intro b hb; exact hb
  | cons c cs1 ih =>
    intro b hb
    cases fm with
    | true =>
      simp only [allChildrenHideNaive, if_true] at hb ⊢
      cases hg : lookupG g c with
      | none => simp [hg] at hb
      | some cn =>
        rw [hg] at hb
        by_cases hm : cn.isMain
        · simp only [if_pos hm] at hb ⊢
          exact ih b hb
        · simp only [if_neg hm] at hb ⊢
          cases hr : rec1 c with
          | none => simp [hr] at hb
          | some br =>
            rw [hr] at hb
            rw [h c br hr]
            cases br with
            | true => exact ih b hb
            | false => exact hb
    | false =>
      simp only [allChildrenHideNaive, Bool.false_eq_true, if_false] at hb ⊢
      cases hr : rec1 c with
      | none => simp [hr] at hb
      | some br =>
        rw [hr] at hb
        rw [h c br hr]
        cases br with
        | true => exact ih b hb
        | false => exact hb

theorem shouldHideNaive_mono {g : CommitGraph} {u : List Nat} :
    ∀ {f oid b}, shouldHideNaive g u f oid = some b →
    ∀ {f2}, f ≤ f2 → shouldHideNaive g u f2 oid = some b := by
  intro f
  induction f with
  | zero => intro oid b h; simp [shouldHideNaive] at h
  | succ f ih =>
    intro oid b h f2 hf2
    obtain ⟨f1, rfl⟩ : ∃ f1, f2 = f1 + 1 := ⟨f2 - 1, by omega⟩
    have hff : f ≤ f1 := by omega
    simp only [shouldHideNaive] at h ⊢
    by_cases hu : oid ∈ u
    · simp only [if_pos hu] at h ⊢
      exact h
    · simp only [if_neg hu] at h ⊢
      cases hg : lookupG g oid with
      | none => simp [hg] at h
      | some node =>
        rw [hg] at h
        have hmono : ∀ c b0, shouldHideNaive g u f c = some b0 →
            shouldHideNaive g u f1 c = some b0 := fun c b0 hc => ih hc hff
        by_cases hm : node.isMain
        · simp only [if_pos hm] at h ⊢
          by_cases hv : node.isVisible
          · simp only [if_pos hv] at h ⊢
            exact allChildrenHideNaive_mono hmono true node.children b h
          · simp only [if_neg hv] at h ⊢
            exact h
        · simp only [if_neg hm] at h ⊢
          by_cases hv : node.isVisible
          · simp only [if_pos hv] at h ⊢
            exact h
          · simp only [if_neg hv] at h ⊢
            exact allChildrenHideNaive_mono hmono false node.children b h

theorem stab_unique {g : CommitGraph} {u : List Nat} {oid : Nat} {b1 b2 : Bool}
    (h1 : stab g u oid b1) (h2 : stab g u oid b2) : b1 = b2 := by
  obtain ⟨f1, hf1⟩ := h1
  obtain ⟨f2, hf2⟩ := h2
  have e1 := shouldHideNaive_mono hf1 (Nat.le_max_left f1 f2)
  have e2 := shouldHideNaive_mono hf2 (Nat.le_max_right f1 f2)
  rw [e1] at e2
  injection e2

theorem stab_false_of_unhideable {g : CommitGraph} {u : List Nat} {oid : Nat}
    (h : oid ∈ u) : stab g u oid false :=
  ⟨1, by simp [shouldHideNaive, h]⟩

theorem cacheConsistent_nil (g : CommitGraph) (u : List Nat) :
    cacheConsistent g u [] := fun o b h => by simp [lookupC] at h

theorem lookupC_insertC (cache : HideCache) (k : Nat) (b : Bool) (k0 : Nat) :
    lookupC (insertC cache k b) k0 =
      if k = k0 then some b else lookupC cache k0 := by
  induction cache with
  | nil =>
    show lookupC [(k, b)] k0 = _
    by_cases h0 : k = k0 <;> simp [lookupC, h0]
  | cons p rest ih =>
    obtain ⟨k1, b1⟩ := p
    show lookupC (if k1 = k then (k, b) :: rest else (k1, b1) :: insertC rest k b) k0 = _
    by_cases h : k1 = k
    · subst h
      by_cases h0 : k1 = k0 <;> simp [lookupC, h0]
    · rw [if_neg h]
      by_cases h0 : k1 = k0
      · subst h0
        have hkk : ¬ k = k1 := fun he => h he.symm
        simp [lookupC, hkk]
      · simp [lookupC, h0, ih]

theorem cacheConsistent_insert {g : CommitGraph} {u : List Nat}
    {cache : HideCache} {oid : Nat} {b : Bool}
    (hc : cacheConsistent g u cache) (hs : stab g u oid b) :
    cacheConsistent g u (insertC cache oid b) := by
  intro o b0 h
  rw [lookupC_insertC] at h
  by_cases he : oid = o
  · subst he
    rw [if_pos rfl] at h
    injection h with hb
    subst hb
    exact hs
  · rw [if_neg he] at h
    exact hc o b0 h

theorem allChildrenHideMemo_sound {g : CommitGraph} {u : List Nat} {f : Nat}
    (hP : ∀ cache oid b cache1, cacheConsistent g u cache →
      shouldHideMemo g u f cache oid = some (b, cache1) →
      stab g u oid b ∧ cacheConsistent g u cache1)
    (fm : Bool) :
    ∀ (cs : List Nat) (cache : HideCache) (b : Bool) (cache1 : HideCache),
      cacheConsistent g u cache →
      allChildrenHideMemo g (shouldHideMemo g u f) fm cache cs = some (b, cache1) →
      cacheConsistent g u cache1 ∧
      ∃ fb, allChildrenHideNaive g (shouldHideNaive g u fb) fm cs = some b := by
  intro cs
  induction cs with
  | nil =>
    intro cache b cache1 hc hb
    simp only [allChildrenHideMemo] at hb
    injection hb with h2
    injection h2 with e1 e2
    subst e1
    subst e2
    exact ⟨hc, 0, rfl⟩
  | cons c cs1 ih =>
    intro cache b cache1 hc hb
    cases fm with
    | true =>
      simp only [allChildrenHideMemo, if_true] at hb
      cases hgc : lookupG g c with
      | none => rw [hgc] at hb; simp at hb
      | some cn =>
        rw [hgc] at hb
        by_cases hm : cn.isMain
        · simp only [if_pos hm] at hb
          obtain ⟨hcache1, fb, hall⟩ := ih cache b cache1 hc hb
          refine ⟨hcache1, fb, ?_⟩
          simp only [allChildrenHideNaive, if_true, hgc, if_pos hm]
          exact hall
        · simp only [if_neg hm] at hb
          cases hmc : shouldHideMemo g u f cache c with
          | none => rw [hmc] at hb; simp at hb
          | some pr =>
            obtain ⟨bc, cachec⟩ := pr
            rw [hmc] at hb
            obtain ⟨hstabc, hcc⟩ := hP cache c bc cachec hc hmc
            cases bc with
            | true =>
              obtain ⟨hcache1, fb1, hall⟩ := ih cachec b cache1 hcc hb
              obtain ⟨fc, hfc⟩ := hstabc
              refine ⟨hcache1, max fc fb1, ?_⟩
              have hcval : shouldHideNaive g u (max fc fb1) c = some true :=
                shouldHideNaive_mono hfc (Nat.le_max_left _ _)
              have hall2 : allChildrenHideNaive g
                  (shouldHideNaive g u (max fc fb1)) true cs1 = some b :=
                allChildrenHideNaive_mono
                  (fun c0 b0 h0 => shouldHideNaive_mono h0 (Nat.le_max_right _ _))
                  true cs1 b hall
              simp only [allChildrenHideNaive, if_true, hgc, if_neg hm, hcval]
              exact hall2
            | false =>
              injection hb with h2
              injection h2 with e1 e2
              subst e1
              subst e2
              obtain ⟨fc, hfc⟩ := hstabc
              refine ⟨hcc, fc, ?_⟩
              simp only [allChildrenHideNaive, if_true, hgc, if_neg hm, hfc]
    | false =>
      simp only [allChildrenHideMemo, Bool.false_eq_true, if_false] at hb
      cases hmc : shouldHideMemo g u f cache c with
      | none => rw [hmc] at hb; simp at hb
      | some pr =>
        obtain ⟨bc, cachec⟩ := pr
        rw [hmc] at hb
        obtain ⟨hstabc, hcc⟩ := hP cache c bc cachec hc hmc
        cases bc with
        | true =>
          obtain ⟨hcache1, fb1, hall⟩ := ih cachec b cache1 hcc hb
          obtain ⟨fc, hfc⟩ := hstabc
          refine ⟨hcache1, max fc fb1, ?_⟩
          have hcval : shouldHideNaive g u (max fc fb1) c = some true :=
            shouldHideNaive_mono hfc (Nat.le_max_left _ _)
          have hall2 : allChildrenHideNaive g
              (shouldHideNaive g u (max fc fb1)) false cs1 = some b :=
            allChildrenHideNaive_mono
              (fun c0 b0 h0 => shouldHideNaive_mono h0 (Nat.le_max_right _ _))
              false cs1 b hall
          simp only [allChildrenHideNaive, Bool.false_eq_true, if_false, hcval]
          exact hall2
        | false =>
          injection hb with h2
          injection h2 with e1 e2
          subst e1
          subst e2
          obtain ⟨fc, hfc⟩ := hstabc
          refine ⟨hcc, fc, ?_⟩
          simp only [allChildrenHideNaive, Bool.false_eq_true, if_false, hfc]

theorem shouldHideMemo_sound {g : CommitGraph} {u : List Nat} :
    ∀ (f : Nat) (cache : HideCache) (oid : Nat) (b : Bool) (cache1 : HideCache),
    cacheConsistent g u cache →
    shouldHideMemo g u f cache oid = some (b, cache1) →
    stab g u oid b ∧ cacheConsistent g u cache1 := by
  intro f
  induction f with
  | zero => intro cache oid b cache1 hc h; simp [shouldHideMemo] at h
  | succ f ih =>
    intro cache oid b cache1 hc h
    simp only [shouldHideMemo] at h
    cases hl : lookupC cache oid with
    | some b0 =>
      rw [hl] at h
      injection h with h2
      injection h2 with e1 e2
      subst e1
      subst e2
      exact ⟨hc oid b0 hl, cacheConsistent_insert hc (hc oid b0 hl)⟩
    | none =>
      rw [hl] at h
      by_cases hu : oid ∈ u
      · simp only [if_pos hu] at h
        injection h with h2
        injection h2 with e1 e2
        subst e1
        subst e2
        have hs := stab_false_of_unhideable (g := g) hu
        exact ⟨hs, cacheConsistent_insert hc hs⟩
      · simp only [if_neg hu] at h
        cases hg : lookupG g oid with
        | none => rw [hg] at h; simp at h
        | some node =>
          rw [hg] at h
          by_cases hm : node.isMain
          · simp only [if_pos hm] at h
            by_cases hv : node.isVisible
            · simp only [if_pos hv] at h
              cases hac : allChildrenHideMemo g (shouldHideMemo g u f)
                  true cache node.children with
              | none => rw [hac] at h; simp at h
              | some pr =>
                obtain ⟨bb, cc⟩ := pr
                rw [hac] at h
                injection h with h2
                injection h2 with e1 e2
                subst e1
                subst e2
                obtain ⟨hcc, fb, hall⟩ :=
                  allChildrenHideMemo_sound ih true node.children cache bb cc hc hac
                have hstab : stab g u oid bb := by
                  refine ⟨fb + 1, ?_⟩
                  simp only [shouldHideNaive, if_neg hu, hg, if_pos hm, if_pos hv]
                  exact hall
                exact ⟨hstab, cacheConsistent_insert hcc hstab⟩
            · simp only [if_neg hv] at h
              injection h with h2
              injection h2 with e1 e2
              subst e1
              subst e2
              have hstab : stab g u oid false := by
                refine ⟨1, ?_⟩
                simp [shouldHideNaive, hu, hg, hm, hv]
              exact ⟨hstab, cacheConsistent_insert hc hstab⟩
          · simp only [if_neg hm] at h
            by_cases hv : node.isVisible
            · simp only [if_pos hv] at h
              injection h with h2
              injection h2 with e1 e2
              subst e1
              subst e2
              have hstab : stab g u oid false := by
                refine ⟨1, ?_⟩
                simp [shouldHideNaive, hu, hg, hm, hv]
              exact ⟨hstab, cacheConsistent_insert hc hstab⟩
            · simp only [if_neg hv] at h
              cases hac : allChildrenHideMemo g (shouldHideMemo g u f)
                  false cache node.children with
              | none => rw [hac] at h; simp at h
              | some pr =>
                obtain ⟨bb, cc⟩ := pr
                rw [hac] at h
                injection h with h2
                injection h2 with e1 e2
                subst e1
                subst e2
                obtain ⟨hcc, fb, hall⟩ :=
                  allChildrenHideMemo_sound ih false node.children cache bb cc hc hac
                have hstab : stab g u oid bb := by
                  refine ⟨fb + 1, ?_⟩
                  simp only [shouldHideNaive, if_neg hu, hg, if_neg hm, if_neg hv]
                  exact hall
                exact ⟨hstab, cacheConsistent_insert hcc hstab⟩

theorem mem_of_lookupG_some {g : CommitGraph} {k : Nat} {nd : Node}
    (h : lookupG g k = some nd) : (k, nd) ∈ g := by
  induction g with
  | nil => simp [lookupG] at h
  | cons p rest ih =>
    obtain ⟨k1, n1⟩ := p
    by_cases he : k1 = k
    · subst he
      simp only [lookupG, if_pos rfl] at h
      injection h with h2
      subst h2
      exact List.mem_cons_self _ _
    · simp only [lookupG, if_neg he] at h
      exact List.mem_cons_of_mem _ (ih h)

theorem allChildrenHideNaive_total {g : CommitGraph} {rec_ : Nat → Option Bool}
    (fm : Bool) :
    ∀ (cs : List Nat),
    (∀ c ∈ cs, (lookupG g c).isSome = true) →
    (∀ c ∈ cs, ∃ b, rec_ c = some b) →
    ∃ b, allChildrenHideNaive g rec_ fm cs = some b := by
  intro cs
  induction cs with
  | nil => intro _ _; exact ⟨true, rfl⟩
  | cons c cs1 ih =>
    intro h1 h2
    have hc1 := h1 c (List.mem_cons_self _ _)
    have hc2 := h2 c (List.mem_cons_self _ _)
    have hrest1 : ∀ c0 ∈ cs1, (lookupG g c0).isSome = true :=
      fun c0 hc0 => h1 c0 (List.mem_cons_of_mem _ hc0)
    have hrest2 : ∀ c0 ∈ cs1, ∃ b, rec_ c0 = some b :=
      fun c0 hc0 => h2 c0 (List.mem_cons_of_mem _ hc0)
    obtain ⟨brest, hbrest⟩ := ih hrest1 hrest2
    obtain ⟨bc, hbc⟩ := hc2
    cases fm with
    | true =>
      obtain ⟨cn, hcn⟩ := Option.isSome_iff_exists.mp hc1
      by_cases hm : cn.isMain
      · refine ⟨brest, ?_⟩
        simp only [allChildrenHideNaive, if_true, hcn, if_pos hm]
        exact hbrest
      · cases bc with
        | true =>
          refine ⟨brest, ?_⟩
          simp only [allChildrenHideNaive, if_true, hcn, if_neg hm, hbc]
          exact hbrest
        | false =>
          refine ⟨false, ?_⟩
          simp only [allChildrenHideNaive, if_true, hcn, if_neg hm, hbc]
    | false =>
      cases bc with
      | true =>
        refine ⟨brest, ?_⟩
        simp only [allChildrenHideNaive, Bool.false_eq_true, if_false, hbc]
        exact hbrest
      | false =>
        refine ⟨false, ?_⟩
        simp only [allChildrenHideNaive, Bool.false_eq_true, if_false, hbc]

theorem shouldHideNaive_total {g : CommitGraph} {u : List Nat} {dep : Nat → Nat}
    (hacyc : ∀ p ∈ g, ∀ c ∈ p.2.children,
      (lookupG g c).isSome = true ∧ dep c < dep p.1) :
    ∀ (f : Nat) (oid : Nat) (nd : Node), lookupG g oid = some nd → dep oid < f →
    ∃ b, shouldHideNaive g u f oid = some b := by
  intro f
  induction f with
  | zero => intro oid nd _ hlt; omega
  | succ f ih =>
    intro oid nd hoid hlt
    by_cases hu : oid ∈ u
    · exact ⟨false, by simp [shouldHideNaive, hu]⟩
    · have hmem := mem_of_lookupG_some hoid
      have hch := hacyc (oid, nd) hmem
      have h1 : ∀ c ∈ nd.children, (lookupG g c).isSome = true :=
        fun c hc => (hch c hc).1
      have h2 : ∀ c ∈ nd.children, ∃ b, shouldHideNaive g u f c = some b := by
        intro c hc
        obtain ⟨cn, hcn⟩ := Option.isSome_iff_exists.mp (hch c hc).1
        have h3 : dep c < dep oid := (hch c hc).2
        exact ih c cn hcn (by omega)
      by_cases hm : nd.isMain
      · by_cases hv : nd.isVisible
        · obtain ⟨b, hb⟩ := allChildrenHideNaive_total true nd.children h1 h2
          refine ⟨b, ?_⟩
          simp only [shouldHideNaive, if_neg hu, hoid, if_pos hm, if_pos hv]
          exact hb
        · exact ⟨false, by simp only [shouldHideNaive, if_neg hu, hoid,
            if_pos hm, if_neg hv]⟩
      · by_cases hv : nd.isVisible
        · exact ⟨false, by simp only [shouldHideNaive, if_neg hu, hoid,
            if_neg hm, if_pos hv]⟩
        · obtain ⟨b, hb⟩ := allChildrenHideNaive_total false nd.children h1 h2
          refine ⟨b, ?_⟩
          simp only [shouldHideNaive, if_neg hu, hoid, if_neg hm, if_neg hv]
          exact hb

theorem allChildrenHideMemo_total {g : CommitGraph}
    {rec_ : HideCache → Nat → Option (Bool × HideCache)} (fm : Bool) :
    ∀ (cs : List Nat) (cache : HideCache),
    (∀ c ∈ cs, (lookupG g c).isSome = true) →
    (∀ cache0, ∀ c ∈ cs, ∃ b cache1, rec_ cache0 c = some (b, cache1)) →
    ∃ b cache1, allChildrenHideMemo g rec_ fm cache cs = some (b, cache1) := by
  intro cs
  induction cs with
  | nil => intro cache _ _; exact ⟨true, cache, rfl⟩
  | cons c cs1 ih =>
    intro cache h1 h2
    have hc1 := h1 c (List.mem_cons_self _ _)
    have hrest1 : ∀ c0 ∈ cs1, (lookupG g c0).isSome = true :=
      fun c0 hc0 => h1 c0 (List.mem_cons_of_mem _ hc0)
    have hrest2 : ∀ cache0, ∀ c0 ∈ cs1, ∃ b cache1, rec_ cache0 c0 = some (b, cache1) :=
      fun cache0 c0 hc0 => h2 cache0 c0 (List.mem_cons_of_mem _ hc0)
    obtain ⟨bc, cachec, hbc⟩ := h2 cache c (List.mem_cons_self _ _)
    cases fm with
    | true =>
      obtain ⟨cn, hcn⟩ := Option.isSome_iff_exists.mp hc1
      by_cases hm : cn.isMain
      · obtain ⟨brest, cacher, hbrest⟩ := ih cache hrest1 hrest2
        refine ⟨brest, cacher, ?_⟩
        simp only [allChildrenHideMemo, if_true, hcn, if_pos hm]
        exact hbrest
      · cases bc with
        | true =>
          obtain ⟨brest, cacher, hbrest⟩ := ih cachec hrest1 hrest2
          refine ⟨brest, cacher, ?_⟩
          simp only [allChildrenHideMemo, if_true, hcn, if_neg hm, hbc]
          exact hbrest
        | false =>
          refine ⟨false, cachec, ?_⟩
          simp only [allChildrenHideMemo, if_true, hcn, if_neg hm, hbc]
    | false =>
      cases bc with
      | true =>
        obtain ⟨brest, cacher, hbrest⟩ := ih cachec hrest1 hrest2
        refine ⟨brest, cacher, ?_⟩
        simp only [allChildrenHideMemo, Bool.false_eq_true, if_false, hbc]
        exact hbrest
      | false =>
        refine ⟨false, cachec, ?_⟩
        simp only [allChildrenHideMemo, Bool.false_eq_true, if_false, hbc]

theorem shouldHideMemo_total {g : CommitGraph} {u : List Nat} {dep : Nat → Nat}
    (hacyc : ∀ p ∈ g, ∀ c ∈ p.2.children,
      (lookupG g c).isSome = true ∧ dep c < dep p.1) :
    ∀ (f : Nat) (cache : HideCache) (oid : Nat) (nd : Node),
    lookupG g oid = some nd → dep oid < f →
    ∃ b cache1, shouldHideMemo g u f cache oid = some (b, cache1) := by
  intro f
  induction f with
  | zero => intro cache oid nd _ hlt; omega
  | succ f ih =>
    intro cache oid nd hoid hlt
    cases hl : lookupC cache oid with
    | some b0 =>
      exact ⟨b0, insertC cache oid b0, by simp only [shouldHideMemo, hl]⟩
    | none =>
      by_cases hu : oid ∈ u
      · exact ⟨false, insertC cache oid false,
          by simp only [shouldHideMemo, hl, if_pos hu]⟩
      · have hmem := mem_of_lookupG_some hoid
        have hch := hacyc (oid, nd) hmem
        have h1 : ∀ c ∈ nd.children, (lookupG g c).isSome = true :=
          fun c hc => (hch c hc).1
        have h2 : ∀ cache0, ∀ c ∈ nd.children,
            ∃ b cache1, shouldHideMemo g u f cache0 c = some (b, cache1) := by
          intro cache0 c hc
          obtain ⟨cn, hcn⟩ := Option.isSome_iff_exists.mp (hch c hc).1
          have h3 : dep c < dep oid := (hch c hc).2
          exact ih cache0 c cn hcn (by omega)
        by_cases hm : nd.isMain
        · by_cases hv : nd.isVisible
          · obtain ⟨b, cache1, hb⟩ :=
              allChildrenHideMemo_total true nd.children cache h1 h2
            refine ⟨b, insertC cache1 oid b, ?_⟩
            simp only [shouldHideMemo, hl, if_neg hu, hoid, if_pos hm, if_pos hv, hb]
          · exact ⟨false, insertC cache oid false, by
              simp only [shouldHideMemo, hl, if_neg hu, hoid, if_pos hm, if_neg hv]⟩
        · by_cases hv : nd.isVisible
          · exact ⟨false, insertC cache oid false, by
              simp only [shouldHideMemo, hl, if_neg hu, hoid, if_neg hm, if_pos hv]⟩
          · obtain ⟨b, cache1, hb⟩ :=
              allChildrenHideMemo_total false nd.children cache h1 h2
            refine ⟨b, insertC cache1 oid b, ?_⟩
            simp only [shouldHideMemo, hl, if_neg hu, hoid, if_neg hm, if_neg hv, hb]

end Graph

/-- C4: on every acyclic commit graph (witnessed by a depth measure that
decreases from parent to child, with all children present), for every
unhideable set, every consistent memoization cache (in particular the empty
one, or one shared by earlier queries in any order) and every node, the
memoized `should_hide` succeeds and returns exactly the value of the naive
recursive predicate — false on unhideable OIDs; for a non-main node, not
visible and all children hide; for a main node, visible and all non-main
children hide — and it leaves the cache consistent, so sharing it across
subsequent queries cannot change any answer. -/
theorem C4_should_hide_memoized_eq_naive (g : Graph.CommitGraph)
    (u : List Nat) (dep : Nat → Nat)
    (hacyc : ∀ p ∈ g, ∀ c ∈ p.2.children,
      (Graph.lookupG g c).isSome = true ∧ dep c < dep p.1)
    (cache : Graph.HideCache) (hcache : Graph.cacheConsistent g u cache)
    (oid : Nat) (nd : Graph.Node) (hoid : Graph.lookupG g oid = some nd)
    (f1 f2 : Nat) (hf1 : dep oid < f1) (hf2 : dep oid < f2) :
    ∃ b cache1,
      Graph.shouldHideMemo g u f1 cache oid = some (b, cache1) ∧
      Graph.shouldHideNaive g u f2 oid = some b ∧
      Graph.cacheConsistent g u cache1 := by
  obtain ⟨b, cache1, hmemo⟩ :=
    Graph.shouldHideMemo_total hacyc f1 cache oid nd hoid hf1
  obtain ⟨hstab, hcons⟩ := Graph.shouldHideMemo_sound f1 cache oid b cache1 hcache hmemo
  obtain ⟨b2, hnaive⟩ := Graph.shouldHideNaive_total hacyc f2 oid nd hoid hf2
  have hb : b2 = b := Graph.stab_unique ⟨f2, hnaive⟩ hstab
  subst hb
  exact ⟨b2, cache1, hmemo, hnaive, hcons⟩

/-- Witness for C4: a two-node graph (a visible main node 2 whose only
child is the hidden non-main node 1), empty cache, fuel 3. -/
theorem C4_should_hide_memoized_eq_naive_witness :
    ∃ b cache1,
      Graph.shouldHideMemo
        [(2, { parentIds := [], parent := none, children := [1], isMain := true,
               isVisible := true, event := none }),
         (1, { parentIds := [2], parent := some 2, children := [], isMain := false,
               isVisible := false, event := none })] [] 3 [] 2 = some (b, cache1) ∧
      Graph.shouldHideNaive
        [(2, { parentIds := [], parent := none, children := [1], isMain := true,
               isVisible := true, event := none }),
         (1, { parentIds := [2], parent := some 2, children := [], isMain := false,
               isVisible := false, event := none })] [] 3 2 = some b ∧
      Graph.cacheConsistent
        [(2, { parentIds := [], parent := none, children := [1], isMain := true,
               isVisible := true, event := none }),
         (1, { parentIds := [2], parent := some 2, children := [], isMain := false,
               isVisible := false, event := none })] [] cache1 :=
  C4_should_hide_memoized_eq_naive _ [] (fun k => k) (by decide) []
    (Graph.cacheConsistent_nil _ _)
    2 { parentIds := [], parent := none, children := [1], isMain := true,
        isVisible := true, event := none } (by decide) 3 3 (by decide) (by decide)

namespace Graph

theorem keys_insertG (g : CommitGraph) (k : Nat) (n : Node) :
    (insertG g k n).map (fun p => p.1) =
      if (lookupG g k).isSome then g.map (fun p => p.1)
      else g.map (fun p => p.1) ++ [k] := by
  induction g with
  | nil => simp [insertG, lookupG]
  | cons p rest ih =>
    obtain ⟨k1, n1⟩ := p
    show ((if k1 = k then (k, n) :: rest else (k1, n1) :: insertG rest k n).map
      (fun p => p.1)) = _
    by_cases h : k1 = k
    · subst h
      simp [lookupG]
    · have hkk : ¬ k = k1 := fun he => h he.symm
      simp only [if_neg h, List.map_cons, lookupG, if_neg h, ih]
      by_cases hs : (lookupG rest k).isSome <;> simp [hs]

theorem NoDupKeys_insertG {g : CommitGraph} {k : Nat} {n : Node}
    (hnd : NoDupKeys g) : NoDupKeys (insertG g k n) := by
  unfold NoDupKeys at hnd ⊢
  rw [keys_insertG]
  by_cases hs : (lookupG g k).isSome
  · simp [hs, hnd]
  · have hk : k ∉ g.map (fun p => p.1) := by
      intro hmem
      rcases List.mem_map.mp hmem with ⟨⟨k2, n2⟩, hp, he⟩
      subst he
      rw [lookupG_some_of_mem hnd hp] at hs
      simp at hs
    simp [hs, List.nodup_append, hnd, hk]

theorem insertPath_trivialLinks {env : WalkEnv} {mb : Option Nat} :
    ∀ (path : List Nat) (g : CommitGraph), TrivialLinks g →
    TrivialLinks (insertPath env mb path g) := by
  intro path
  induction path with
  | nil => intro g hg; exact hg
  | cons c cs ih =>
    intro g hg
    by_cases hc : (lookupG g c).isSome
    · simp only [insertPath, if_pos hc]
      exact hg
    · simp only [insertPath, if_neg hc]
      apply ih
      intro n nd hlook
      rw [lookupG_insertG] at hlook
      by_cases he : c = n
      · rw [if_pos he] at hlook
        injection hlook with h2
        subst h2
        exact ⟨rfl, rfl⟩
      · rw [if_neg he] at hlook
        exact hg n nd hlook

theorem insertPath_noDupKeys {env : WalkEnv} {mb : Option Nat} :
    ∀ (path : List Nat) (g : CommitGraph), NoDupKeys g →
    NoDupKeys (insertPath env mb path g) := by
  intro path
  induction path with
  | nil => intro g hg; exact hg
  | cons c cs ih =>
    intro g hg
    by_cases hc : (lookupG g c).isSome
    · simp only [insertPath, if_pos hc]
      exact hg
    · simp only [insertPath, if_neg hc]
      exact ih _ (NoDupKeys_insertG hg)

theorem walkSeeds_trivialLinks {env : WalkEnv} {mainOid fuel : Nat} :
    ∀ (seeds : List Nat) (g gw : CommitGraph), TrivialLinks g → NoDupKeys g →
    walkSeeds env mainOid fuel seeds g = some gw →
    TrivialLinks gw ∧ NoDupKeys gw := by
  intro seeds
  induction seeds with
  | nil =>
    intro g gw h1 h2 hw
    simp only [walkSeeds] at hw
    injection hw with h3
    subst h3
    exact ⟨h1, h2⟩
  | cons s rest ih =>
    intro g gw h1 h2 hw
    simp only [walkSeeds] at hw
    split at hw
    · split at hw
      · exact ih _ gw (insertPath_trivialLinks _ _ h1) (insertPath_noDupKeys _ _ h2) hw
      · split at hw
        · exact absurd hw (by simp)
        · exact ih _ gw h1 h2 hw
        · exact ih _ gw (insertPath_trivialLinks _ _ h1)
            (insertPath_noDupKeys _ _ h2) hw
    · exact ih _ gw h1 h2 hw

theorem computeLinks_mem {g : CommitGraph} {c q : Nat}
    (h : (c, q) ∈ computeLinks g) :
    ∃ cnd, (c, cnd) ∈ g ∧ cnd.isMain = false ∧ q ∈ cnd.parentIds ∧
      (lookupG g q).isSome = true := by
  unfold computeLinks at h
  rcases List.mem_flatMap.mp h with ⟨p, hp, hq⟩
  obtain ⟨c1, cnd⟩ := p
  rcases List.mem_map.mp hq with ⟨q1, hq1, he⟩
  injection he with e1 e2
  subst e1
  subst e2
  rcases List.mem_filter.mp hq1 with ⟨hq2, hq3⟩
  rcases List.mem_filter.mp hp with ⟨hp1, hp2⟩
  refine ⟨cnd, hp1, ?_, hq2, ?_⟩
  · simpa using hp2
  · simpa using hq3

theorem keys_modifyG (g : CommitGraph) (k : Nat) (f : Node → Node) :
    (modifyG g k f).map (fun p => p.1) = g.map (fun p => p.1) := by
  unfold modifyG
  rw [List.map_map]
  apply List.map_congr_left
  intro p _
  by_cases h : p.1 = k <;> simp [h]

theorem isSome_lookupG_applyLinks :
    ∀ (ls : List (Nat × Nat)) (g : CommitGraph) (k : Nat),
    (lookupG (applyLinks ls g) k).isSome = (lookupG g k).isSome := by
  intro ls
  induction ls with
  | nil => intro g k; rfl
  | cons p ls1 ih =>
    obtain ⟨c, q⟩ := p
    intro g k
    rw [show applyLinks ((c, q) :: ls1) g = applyLinks ls1
      (modifyG (modifyG g c (fun n => { n with parent := some q }))
        q (fun n => { n with children := insertUnique n.children c })) from rfl]
    rw [ih]
    rw [lookupG_modifyG, lookupG_modifyG]
    by_cases h1 : q = k <;> by_cases h2 : c = k <;>
      simp [h1, h2, Option.isSome_map]

theorem mem_insertUnique_of_mem {l : List Nat} {x y : Nat} (h : x ∈ l) :
    x ∈ insertUnique l y := by
  unfold insertUnique
  split
  · exact h
  · exact List.mem_append_left _ h

theorem mem_insertUnique_self (l : List Nat) (x : Nat) :
    x ∈ insertUnique l x := by
  unfold insertUnique
  split
  · assumption
  · simp

theorem applyLinks_node_rel :
    ∀ (ls : List (Nat × Nat)) (g : CommitGraph) (n : Nat) (nd' : Node),
    lookupG (applyLinks ls g) n = some nd' →
    ∃ nd, lookupG g n = some nd ∧ nd'.isMain = nd.isMain ∧
      nd'.isVisible = nd.isVisible ∧ nd'.parentIds = nd.parentIds ∧
      (∀ x ∈ nd.children, x ∈ nd'.children) ∧
      (nd'.parent = nd.parent ∨ ∃ q, nd'.parent = some q ∧ (n, q) ∈ ls) := by
  intro ls
  induction ls with
  | nil =>
    intro g n nd' h
    exact ⟨nd', h, rfl, rfl, rfl, fun x hx => hx, Or.inl rfl⟩
  | cons p ls1 ih =>
    obtain ⟨c, q⟩ := p
    intro g n nd' h
    rw [show applyLinks ((c, q) :: ls1) g = applyLinks ls1
      (modifyG (modifyG g c (fun nd => { nd with parent := some q }))
        q (fun nd => { nd with children := insertUnique nd.children c })) from rfl] at h
    obtain ⟨nd1, h1, e1, e2, e3, hch, hpar⟩ := ih _ n nd' h
    rw [lookupG_modifyG, lookupG_modifyG] at h1
    have extendPar : ∀ q0, (n, q0) ∈ ls1 → (n, q0) ∈ (c, q) :: ls1 :=
      fun q0 hq0 => List.mem_cons_of_mem _ hq0
    by_cases hq : q = n
    · rw [if_pos hq] at h1
      by_cases hc : c = n
      · rw [if_pos hc] at h1
        cases hg : lookupG g n with
        | none => rw [hg] at h1; simp at h1
        | some nd0 =>
          rw [hg] at h1
          simp only [Option.map_some'] at h1
          injection h1 with h2
          subst h2
          refine ⟨nd0, rfl, e1, e2, e3, ?_, ?_⟩
          · intro x hx
            exact hch x (mem_insertUnique_of_mem hx)
          · rcases hpar with hp | ⟨q1, hq1, hq2⟩
            · exact Or.inr ⟨q, hp, by rw [hc]; exact List.mem_cons_self _ _⟩
            · exact Or.inr ⟨q1, hq1, extendPar q1 hq2⟩
      · rw [if_neg hc] at h1
        cases hg : lookupG g n with
        | none => rw [hg] at h1; simp at h1
        | some nd0 =>
          rw [hg] at h1
          simp only [Option.map_some'] at h1
          injection h1 with h2
          subst h2
          refine ⟨nd0, rfl, e1, e2, e3, ?_, ?_⟩
          · intro x hx
            exact hch x (mem_insertUnique_of_mem hx)
          · rcases hpar with hp | ⟨q1, hq1, hq2⟩
            · exact Or.inl hp
            · exact Or.inr ⟨q1, hq1, extendPar q1 hq2⟩
    · rw [if_neg hq] at h1
      by_cases hc : c = n
      · rw [if_pos hc] at h1
        cases hg : lookupG g n with
        | none => rw [hg] at h1; simp at h1
        | some nd0 =>
          rw [hg] at h1
          simp only [Option.map_some'] at h1
          injection h1 with h2
          subst h2
          refine ⟨nd0, rfl, e1, e2, e3, hch, ?_⟩
          rcases hpar with hp | ⟨q1, hq1, hq2⟩
          · exact Or.inr ⟨q, hp, by rw [hc]; exact List.mem_cons_self _ _⟩
          · exact Or.inr ⟨q1, hq1, extendPar q1 hq2⟩
      · rw [if_neg hc] at h1
        obtain ⟨nd0, hg⟩ : ∃ nd0, lookupG g n = some nd0 := ⟨nd1, h1⟩
        rw [hg] at h1
        injection h1 with h2
        subst h2
        refine ⟨nd0, hg, e1, e2, e3, hch, ?_⟩
        rcases hpar with hp | ⟨q1, hq1, hq2⟩
        · exact Or.inl hp
        · exact Or.inr ⟨q1, hq1, extendPar q1 hq2⟩

theorem applyLinks_adds_child :
    ∀ (ls : List (Nat × Nat)) (g : CommitGraph) (c q : Nat),
    (c, q) ∈ ls → (lookupG g q).isSome = true →
    ∃ qn, lookupG (applyLinks ls g) q = some qn ∧ c ∈ qn.children := by
  intro ls
  induction ls with
  | nil => intro g c q h _; simp at h
  | cons p ls1 ih =>
    obtain ⟨c0, q0⟩ := p
    intro g c q hmem hq
    rw [show applyLinks ((c0, q0) :: ls1) g = applyLinks ls1
      (modifyG (modifyG g c0 (fun nd => { nd with parent := some q0 }))
        q0 (fun nd => { nd with children := insertUnique nd.children c0 })) from rfl]
    rcases List.mem_cons.mp hmem with he | he
    · injection he with e1 e2
      subst e1
      subst e2
      obtain ⟨nd0, hnd0⟩ := Option.isSome_iff_exists.mp hq
      have hg1 : ∃ qn1, lookupG
          (modifyG (modifyG g c (fun nd => { nd with parent := some q }))
            q (fun nd => { nd with children := insertUnique nd.children c })) q =
          some qn1 ∧ c ∈ qn1.children := by
        rw [lookupG_modifyG, if_pos rfl, lookupG_modifyG]
        by_cases hcq : c = q
        · rw [if_pos hcq, hnd0]
          exact ⟨_, rfl, mem_insertUnique_self _ _⟩
        · rw [if_neg hcq, hnd0]
          exact ⟨_, rfl, mem_insertUnique_self _ _⟩
      obtain ⟨qn1, hqn1, hcq⟩ := hg1
      have hsome : (lookupG (applyLinks ls1
          (modifyG (modifyG g c (fun nd => { nd with parent := some q }))
            q (fun nd => { nd with children := insertUnique nd.children c }))) q).isSome = true := by
        rw [isSome_lookupG_applyLinks, hqn1]
        rfl
      obtain ⟨qn, hqn⟩ := Option.isSome_iff_exists.mp hsome
      obtain ⟨nd1, h1, _, _, _, hch, _⟩ := applyLinks_node_rel ls1 _ q qn hqn
      rw [hqn1] at h1
      injection h1 with h2
      subst h2
      exact ⟨qn, hqn, hch c hcq⟩
    · have hq1 : (lookupG
          (modifyG (modifyG g c0 (fun nd => { nd with parent := some q0 }))
            q0 (fun nd => { nd with children := insertUnique nd.children c0 })) q).isSome = true := by
        rw [lookupG_modifyG, lookupG_modifyG]
        by_cases h1 : q0 = q <;> by_cases h2 : c0 = q <;>
          simp [h1, h2, Option.isSome_map, hq]
      exact ih _ c q he hq1

theorem removeOne_rel {g g1 : CommitGraph} {x : Nat}
    (h : removeOne g x = some g1) :
    ∀ n nd1, lookupG g1 n = some nd1 →
    ¬ n = x ∧ ∃ nd, lookupG g n = some nd ∧ nd1.parent = nd.parent ∧
      nd1.isMain = nd.isMain ∧ nd1.isVisible = nd.isVisible ∧
      (∀ y ∈ nd.children, ¬ y = x → y ∈ nd1.children) := by
  intro n nd1 h1
  unfold removeOne at h
  split at h
  · exact absurd h (by simp)
  · split at h
    · split at h
      · injection h with h2
        subst h2
        rw [lookupG_modifyG, lookupG_removeG] at h1
        rename_i ndx hx q hpar hqs
        by_cases hq : q = n
        · rw [if_pos hq] at h1
          by_cases hxn : x = n
          · rw [if_pos hxn] at h1; simp at h1
          · rw [if_neg hxn] at h1
            cases hg : lookupG g n with
            | none => rw [hg] at h1; simp at h1
            | some nd0 =>
              rw [hg] at h1
              simp only [Option.map_some'] at h1
              injection h1 with h2
              subst h2
              refine ⟨fun he => hxn he.symm, nd0, rfl, rfl, rfl, rfl, ?_⟩
              intro y hy hyx
              simp only [List.mem_filter]
              refine ⟨hy, ?_⟩
              simpa using hyx
        · rw [if_neg hq] at h1
          by_cases hxn : x = n
          · rw [if_pos hxn] at h1; simp at h1
          · rw [if_neg hxn] at h1
            exact ⟨fun he => hxn he.symm, nd1, h1, rfl, rfl, rfl, fun y hy _ => hy⟩
      · injection h with h2
        subst h2
        rw [lookupG_removeG] at h1
        by_cases hxn : x = n
        · rw [if_pos hxn] at h1; simp at h1
        · rw [if_neg hxn] at h1
          exact ⟨fun he => hxn he.symm, nd1, h1, rfl, rfl, rfl, fun y hy _ => hy⟩
    · injection h with h2
      subst h2
      rw [lookupG_removeG] at h1
      by_cases hxn : x = n
      · rw [if_pos hxn] at h1; simp at h1
      · rw [if_neg hxn] at h1
        exact ⟨fun he => hxn he.symm, nd1, h1, rfl, rfl, rfl, fun y hy _ => hy⟩

theorem removeOne_preserve {g g1 : CommitGraph} {x : Nat}
    (h : removeOne g x = some g1) :
    ∀ n, ¬ n = x → (lookupG g n).isSome = true → (lookupG g1 n).isSome = true := by
  intro n hnx hsome
  have hxn : ¬ x = n := fun he => hnx he.symm
  unfold removeOne at h
  split at h
  · exact absurd h (by simp)
  · split at h
    · split at h
      · injection h with h2
        subst h2
        rename_i ndx hx q hpar hqs
        rw [lookupG_modifyG, lookupG_removeG]
        by_cases hq : q = n <;>
          simp [hq, hxn, Option.isSome_map, hsome]
      · injection h with h2
        subst h2
        rw [lookupG_removeG]
        simp [hxn, hsome]
    · injection h with h2
      subst h2
      rw [lookupG_removeG]
      simp [hxn, hsome]

theorem removeAll_rel :
    ∀ (xs : List Nat) (g g1 : CommitGraph), removeAll xs g = some g1 →
    ∀ n nd1, lookupG g1 n = some nd1 →
    n ∉ xs ∧ ∃ nd, lookupG g n = some nd ∧ nd1.parent = nd.parent ∧
      nd1.isMain = nd.isMain ∧
      (∀ y ∈ nd.children, y ∉ xs → y ∈ nd1.children) := by
  intro xs
  induction xs with
  | nil =>
    intro g g1 h n nd1 h1
    simp only [removeAll] at h
    injection h with h2
    subst h2
    exact ⟨by simp, nd1, h1, rfl, rfl, fun y hy _ => hy⟩
  | cons x xs1 ih =>
    intro g g1 h n nd1 h1
    simp only [removeAll] at h
    cases hr : removeOne g x with
    | none => rw [hr] at h; simp at h
    | some g2 =>
      rw [hr] at h
      obtain ⟨hnx1, nd2, h2, e1, e2, hch⟩ := ih g2 g1 h n nd1 h1
      obtain ⟨hnx, nd, hg, f1, f2, f3, hch2⟩ := removeOne_rel hr n nd2 h2
      refine ⟨?_, nd, hg, e1.trans f1, e2.trans f2, ?_⟩
      · simp only [List.mem_cons, not_or]
        exact ⟨hnx, hnx1⟩
      · intro y hy hymem
        simp only [List.mem_cons, not_or] at hymem
        exact hch y (hch2 y hy hymem.1) hymem.2

theorem removeAll_preserve :
    ∀ (xs : List Nat) (g g1 : CommitGraph), removeAll xs g = some g1 →
    ∀ n, n ∉ xs → (lookupG g n).isSome = true → (lookupG g1 n).isSome = true := by
  intro xs
  induction xs with
  | nil =>
    intro g g1 h n _ hsome
    simp only [removeAll] at h
    injection h with h2
    subst h2
    exact hsome
  | cons x xs1 ih =>
    intro g g1 h n hmem hsome
    simp only [removeAll] at h
    cases hr : removeOne g x with
    | none => rw [hr] at h; simp at h
    | some g2 =>
      rw [hr] at h
      simp only [List.mem_cons, not_or] at hmem
      exact ih g2 g1 h n hmem.2 (removeOne_preserve hr n hmem.1 hsome)

theorem computeHideList_spec {g : CommitGraph} {u : List Nat} {fuel : Nat} :
    ∀ (ks : List Nat) (cache : HideCache) (hl : List Nat),
    cacheConsistent g u cache →
    computeHideList g u fuel ks cache = some hl →
    (∀ k ∈ hl, k ∈ ks ∧ stab g u k true) ∧
    (∀ k ∈ ks, k ∉ hl → stab g u k false) := by
  intro ks
  induction ks with
  | nil =>
    intro cache hl _ h
    simp only [computeHideList] at h
    injection h with h2
    subst h2
    exact ⟨fun k hk => absurd hk (by simp), fun k hk => absurd hk (by simp)⟩
  | cons k0 ks1 ih =>
    intro cache hl hc h
    simp only [computeHideList] at h
    cases hm : shouldHideMemo g u fuel cache k0 with
    | none => rw [hm] at h; simp at h
    | some pr =>
      obtain ⟨b, cache1⟩ := pr
      rw [hm] at h
      have h3 : (match computeHideList g u fuel ks1 cache1 with
          | none => none
          | some l => some (if b = true then k0 :: l else l)) = some hl := h
      obtain ⟨hstab, hcons⟩ := shouldHideMemo_sound fuel cache k0 b cache1 hc hm
      cases hl1 : computeHideList g u fuel ks1 cache1 with
      | none => rw [hl1] at h3; simp at h3
      | some l =>
        rw [hl1] at h3
        injection h3 with h2
        subst h2
        obtain ⟨hfwd, hbwd⟩ := ih cache1 l hcons hl1
        cases b with
        | true =>
          constructor
          · intro k hk
            simp only [if_true] at hk
            rcases List.mem_cons.mp hk with he | he
            · subst he
              exact ⟨List.mem_cons_self _ _, hstab⟩
            · obtain ⟨hin, hs⟩ := hfwd k he
              exact ⟨List.mem_cons_of_mem _ hin, hs⟩
          · intro k hk hnot
            simp only [if_true, List.mem_cons, not_or] at hnot
            rcases List.mem_cons.mp hk with he | he
            · exact absurd he hnot.1
            · exact hbwd k he hnot.2
        | false =>
          constructor
          · intro k hk
            simp only [Bool.false_eq_true, if_false] at hk
            obtain ⟨hin, hs⟩ := hfwd k hk
            exact ⟨List.mem_cons_of_mem _ hin, hs⟩
          · intro k hk hnot
            simp only [Bool.false_eq_true, if_false] at hnot
            rcases List.mem_cons.mp hk with he | he
            · subst he
              exact hstab
            · exact hbwd k he hnot

theorem allChildrenHideNaive_true_elim {g : CommitGraph} {rec_ : Nat → Option Bool}
    (fm : Bool) :
    ∀ (cs : List Nat), allChildrenHideNaive g rec_ fm cs = some true →
    ∀ c ∈ cs, ∀ cn, lookupG g c = some cn → cn.isMain = false →
    rec_ c = some true := by
  intro cs
  induction cs with
  | nil => intro _ c hc; simp at hc
  | cons c0 cs1 ih =>
    intro h c hc cn hcn hcm
    cases fm with
    | true =>
      simp only [allChildrenHideNaive, if_true] at h
      cases hg : lookupG g c0 with
      | none => rw [hg] at h; simp at h
      | some cn0 =>
        rw [hg] at h
        by_cases hm : cn0.isMain
        · simp only [if_pos hm] at h
          rcases List.mem_cons.mp hc with he | he
          · subst he
            rw [hg] at hcn
            injection hcn with h2
            subst h2
            rw [hm] at hcm
            exact absurd hcm (by simp)
          · exact ih h c he cn hcn hcm
        · simp only [if_neg hm] at h
          cases hr : rec_ c0 with
          | none => rw [hr] at h; simp at h
          | some br =>
            rw [hr] at h
            cases br with
            | true =>
              rcases List.mem_cons.mp hc with he | he
              · subst he; exact hr
              · exact ih h c he cn hcn hcm
            | false => simp at h
    | false =>
      simp only [allChildrenHideNaive, Bool.false_eq_true, if_false] at h
      cases hr : rec_ c0 with
      | none => rw [hr] at h; simp at h
      | some br =>
        rw [hr] at h
        cases br with
        | true =>
          rcases List.mem_cons.mp hc with he | he
          · subst he; exact hr
          · exact ih h c he cn hcn hcm
        | false => simp at h

theorem stab_true_child {g : CommitGraph} {u : List Nat} {p : Nat} {pn : Node}
    (hs : stab g u p true) (hp : lookupG g p = some pn) :
    ∀ c ∈ pn.children, ∀ cn, lookupG g c = some cn → cn.isMain = false →
    stab g u c true := by
  intro c hc cn hcn hcm
  obtain ⟨f, hf⟩ := hs
  cases f with
  | zero => simp [shouldHideNaive] at hf
  | succ f1 =>
    simp only [shouldHideNaive] at hf
    by_cases hu : p ∈ u
    · rw [if_pos hu] at hf
      simp at hf
    · rw [if_neg hu, hp] at hf
      have hf2 : (if pn.isMain = true then
          (if pn.isVisible = true then
            allChildrenHideNaive g (shouldHideNaive g u f1) true pn.children
          else some false)
        else
          (if pn.isVisible = true then some false
          else allChildrenHideNaive g (shouldHideNaive g u f1) false pn.children)) =
          some true := hf
      by_cases hm : pn.isMain
      · rw [if_pos hm] at hf2
        by_cases hv : pn.isVisible
        · rw [if_pos hv] at hf2
          exact ⟨f1, allChildrenHideNaive_true_elim true pn.children hf2 c hc cn hcn hcm⟩
        · rw [if_neg hv] at hf2
          simp at hf2
      · rw [if_neg hm] at hf2
        by_cases hv : pn.isVisible
        · rw [if_pos hv] at hf2
          simp at hf2
        · rw [if_neg hv] at hf2
          exact ⟨f1, allChildrenHideNaive_true_elim false pn.children hf2 c hc cn hcn hcm⟩

end Graph

namespace Graph

theorem walk_parentInv {gw : CommitGraph} (htriv : TrivialLinks gw) :
    ParentInv (applyLinks (computeLinks gw) gw) := by
  intro n nd' p h hpar
  obtain ⟨nd, hnd, _, _, _, _, hdisj⟩ := applyLinks_node_rel (computeLinks gw) gw n nd' h
  rcases hdisj with hp | ⟨q, hq, hmem⟩
  · rw [(htriv n nd hnd).1] at hp
    rw [hp] at hpar
    exact absurd hpar (by simp)
  · rw [hq] at hpar
    injection hpar with h2
    subst h2
    obtain ⟨_, _, _, _, hqsome⟩ := computeLinks_mem hmem
    obtain ⟨pn, hpn, hchild⟩ := applyLinks_adds_child (computeLinks gw) gw n q hmem hqsome
    exact ⟨pn, hpn, hchild⟩

theorem walk_nonMainParent {gw : CommitGraph} (htriv : TrivialLinks gw)
    (hnd : NoDupKeys gw) :
    NonMainParent (applyLinks (computeLinks gw) gw) := by
  intro n nd' h hne
  obtain ⟨nd, hndl, emain, _, _, _, hdisj⟩ := applyLinks_node_rel (computeLinks gw) gw n nd' h
  rcases hdisj with hp | ⟨q, hq, hmem⟩
  · rw [(htriv n nd hndl).1] at hp
    exact absurd hp hne
  · obtain ⟨cnd, hcm, hcmain, _, _⟩ := computeLinks_mem hmem
    have := lookupG_some_of_mem hnd hcm
    rw [hndl] at this
    injection this with h2
    subst h2
    rw [emain]
    exact hcmain

end Graph

/-- C2: in the commit graph returned by `make_graph` — whether or not
`remove_commits` is set — every node `n` with `n.parent = Some p` has `p`
present in the graph and `n` a member of `p`'s children set: the children
relation is the inverse of the graph-parent relation. -/
theorem C2_children_inverse_of_parent (env : Graph.WalkEnv) (fuel : Nat)
    (headOid : Option Nat) (mainBranchOid : Nat)
    (branchOids activeOids : List Nat) (removeCommits : Bool)
    (g : Graph.CommitGraph)
    (hmk : Graph.make_graph env fuel headOid mainBranchOid branchOids activeOids
      removeCommits = some g) :
    ∀ n nd p, Graph.lookupG g n = some nd → nd.parent = some p →
    ∃ pn, Graph.lookupG g p = some pn ∧ n ∈ pn.children := by
  intro n nd' p hn hp
  simp only [Graph.make_graph] at hmk
  split at hmk
  · exact absurd hmk (by simp)
  · rename_i g0 hw
    simp only [Graph.walk_from_commits] at hw
    split at hw
    · exact absurd hw (by simp)
    · rename_i gw hws
      injection hw with hw2
      obtain ⟨htriv, hnodup⟩ := Graph.walkSeeds_trivialLinks _ _ _
        (fun k nd h => absurd h (by simp [Graph.lookupG]))
        (by simp [Graph.NoDupKeys]) hws
      have hpi : Graph.ParentInv g0 := by
        rw [← hw2]
        exact Graph.walk_parentInv htriv
      have hnm : Graph.NonMainParent g0 := by
        rw [← hw2]
        exact Graph.walk_nonMainParent htriv hnodup
      cases removeCommits with
      | false =>
        simp only [Bool.false_eq_true, if_false] at hmk
        injection hmk with h2
        subst h2
        exact hpi n nd' p hn hp
      | true =>
        simp only [if_true] at hmk
        simp only [Graph.do_remove_commits] at hmk
        generalize hhd : (match headOid with
          | some h => [h]
          | none => ([] : List Nat)) = hdl at hmk
        split at hmk
        · exact absurd hmk (by simp)
        · rename_i hl hcl
          obtain ⟨hnin, nd0, hg0, epar, _, hch⟩ :=
            Graph.removeAll_rel hl g0 g hmk n nd' hn
          have hpar0 : nd0.parent = some p := by rw [← epar]; exact hp
          obtain ⟨pn0, hpn0, hnchild⟩ := hpi n nd0 p hg0 hpar0
          have hmain0 : nd0.isMain = false :=
            hnm n nd0 hg0 (by rw [hpar0]; simp)
          have hspec := Graph.computeHideList_spec (g0.map (fun q => q.1)) [] hl
            (Graph.cacheConsistent_nil _ _) hcl
          have hnkeys : n ∈ g0.map (fun q => q.1) :=
            Graph.mem_keys_of_lookupG_some hg0
          have hstabn : Graph.stab g0 (branchOids ++ hdl) n false :=
            hspec.2 n hnkeys hnin
          have hpnot : p ∉ hl := by
            intro hpin
            have hstabp := (hspec.1 p hpin).2
            have hstabn2 := Graph.stab_true_child hstabp hpn0 n hnchild nd0 hg0 hmain0
            have := Graph.stab_unique hstabn2 hstabn
            simp at this
          have hpsome := Graph.removeAll_preserve hl g0 g hmk p hpnot
            (by rw [hpn0]; rfl)
          obtain ⟨pn1, hpn1⟩ := Option.isSome_iff_exists.mp hpsome
          obtain ⟨_, pnx, hgpn, _, _, hchp⟩ :=
            Graph.removeAll_rel hl g0 g hmk p pn1 hpn1
          rw [hpn0] at hgpn
          injection hgpn with h2
          subst h2
          exact ⟨pn1, hpn1, hchp n hnchild hnin⟩

/-- C3: pruning never removes a commit pointed to by HEAD or by a branch —
every OID in `branch_oids ∪ {head_oid}` that is a node of the unpruned
graph (the result of `walk_from_commits`) is still a node of the graph
produced by `make_graph` with `remove_commits` set. -/
theorem C3_pruning_preserves_anchors (env : Graph.WalkEnv) (fuel : Nat)
    (headOid : Option Nat) (mainBranchOid : Nat)
    (branchOids activeOids : List Nat) (g0 g : Graph.CommitGraph)
    (oid : Nat) (nd : Graph.Node)
    (hwalk : Graph.walk_from_commits env mainBranchOid fuel
      (activeOids ++ branchOids ++
        (match headOid with | some h => [h] | none => [])) = some g0)
    (hmk : Graph.make_graph env fuel headOid mainBranchOid branchOids activeOids
      true = some g)
    (hanchor : oid ∈ branchOids ∨ headOid = some oid)
    (hin : Graph.lookupG g0 oid = some nd) :
    (Graph.lookupG g oid).isSome = true := by
  simp only [Graph.make_graph] at hmk
  rw [hwalk] at hmk
  simp only [if_true] at hmk
  simp only [Graph.do_remove_commits] at hmk
  generalize hhd : (match headOid with
    | some h => [h]
    | none => ([] : List Nat)) = hdl at hmk
  split at hmk
  · exact absurd hmk (by simp)
  · rename_i hl hcl
    have hu : oid ∈ branchOids ++ hdl := by
      rcases hanchor with h | h
      · exact List.mem_append_left _ h
      · refine List.mem_append_right _ ?_
        rw [h] at hhd
        rw [← hhd]
        exact List.mem_singleton.mpr rfl
    have hspec := Graph.computeHideList_spec (g0.map (fun q => q.1)) [] hl
      (Graph.cacheConsistent_nil _ _) hcl
    have hnot : oid ∉ hl := by
      intro hpin
      have hstabt := (hspec.1 oid hpin).2
      have hstabf := Graph.stab_false_of_unhideable
        (g := g0) (u := branchOids ++ hdl) hu
      have := Graph.stab_unique hstabt hstabf
      simp at this
    exact Graph.removeAll_preserve hl g0 g hmk oid hnot (by rw [hin]; rfl)

/-- Witness for C2: a repository with main-branch tip 1 and HEAD commit 2
whose VCS parent is 1; in the pruned graph, node 2 has graph-parent 1 and
node 1 lists 2 among its children. -/
theorem C2_children_inverse_of_parent_witness :
    ∃ pn, Graph.lookupG
      [(2, { parentIds := [1], parent := some 1, children := [], isMain := false,
             isVisible := true, event := none }),
       (1, { parentIds := [], parent := none, children := [2], isMain := true,
             isVisible := true, event := none })] 1 = some pn ∧ 2 ∈ pn.children :=
  C2_children_inverse_of_parent
    { commitExists := fun _ => true,
      parents := fun n => if n = 2 then [1] else [],
      visibility := fun _ => none,
      latestEvent := fun _ => none,
      getMergeBase := fun a b => some (min a b) }
    10 (some 2) 1 [] [] true
    [(2, { parentIds := [1], parent := some 1, children := [], isMain := false,
           isVisible := true, event := none }),
     (1, { parentIds := [], parent := none, children := [2], isMain := true,
           isVisible := true, event := none })]
    (by decide) 2
    { parentIds := [1], parent := some 1, children := [], isMain := false,
      isVisible := true, event := none }
    1 (by decide) rfl

/-- Witness for C3: in the same repository, HEAD commit 2 is a node of the
unpruned graph and survives pruning. -/
theorem C3_pruning_preserves_anchors_witness :
    (Graph.lookupG
      [(2, { parentIds := [1], parent := some 1, children := [], isMain := false,
             isVisible := true, event := none }),
       (1, { parentIds := [], parent := none, children := [2], isMain := true,
             isVisible := true, event := none })] 2).isSome = true :=
  C3_pruning_preserves_anchors
    { commitExists := fun _ => true,
      parents := fun n => if n = 2 then [1] else [],
      visibility := fun _ => none,
      latestEvent := fun _ => none,
      getMergeBase := fun a b => some (min a b) }
    10 (some 2) 1 [] []
    [(2, { parentIds := [1], parent := some 1, children := [], isMain := false,
           isVisible := true, event := none }),
     (1, { parentIds := [], parent := none, children := [2], isMain := true,
           isVisible := true, event := none })]
    [(2, { parentIds := [1], parent := some 1, children := [], isMain := false,
           isVisible := true, event := none }),
     (1, { parentIds := [], parent := none, children := [2], isMain := true,
           isVisible := true, event := none })]
    2
    { parentIds := [1], parent := some 1, children := [], isMain := false,
      isVisible := true, event := none }
    (by decide) (by decide) (Or.inr rfl) (by decide)
